import Mathlib

set_option maxRecDepth 4000
set_option linter.constructorNameAsVariable false

/-!
Verification of the Sudoku core of this repository (the puzzle worker in
src/app.ts): the Fisher-Yates shuffle, the placement validity check
(isValid), the randomized backtracking filler (solve), the bounded
solution counter (hasUniqueSolution) and the puzzle generator
(generatePuzzle).

Modelling conventions.

* A JS 9x9 board (array of arrays of numbers, 0 = empty) is modelled as a
  function Grid := Fin 9 -> Fin 9 -> Nat; the in-place assignment
  board[r][c] = v is modelled by the functional update setCell.
* Randomness: Math.random enters the code in exactly two places, the
  digit-order shuffle inside solve and the 81-coordinate shuffle inside
  generatePuzzle.  The coordinate shuffle is modelled by running the
  embedded shuffle on an arbitrary stream rand : Nat -> Nat of draws,
  where the source's Math.floor(Math.random() * (i + 1)) - an arbitrary
  value in [0, i] - is recovered as rand k % (i + 1), which ranges over
  exactly those values.  The digit shuffle inside solve is modelled by an
  oracle orders : Grid -> DigitPerm giving, for the grid state at a cell
  visit, the shuffled digit list used there; by shuffle_perm_length every
  list the source can produce is a permutation of [1..9], which the
  subtype DigitPerm records.  Within one run of solve no two visits carry
  the same grid (the grid of a call determines the chain of placements
  that produced it from the root grid), so every actual run is an
  instance of some oracle.
* solve and the inner find of hasUniqueSolution both rescan the board
  from index 0 for the first empty cell on every call.  Cells before the
  current scan position are filled at every reachable call (skipped cells
  were non-empty, placed cells stay non-empty until their own frame
  unwinds), so the rescan always lands at or after the previous position;
  the embedding makes this explicit by carrying the scan position, with
  rem = remaining positions and pos = 81 - rem, and recursing on rem.
-/

abbrev Grid := Fin 9 → Fin 9 → Nat

/-- The empty board built by generatePuzzle: Array(9).fill().map(() => Array(9).fill(0)). -/
def emptyGrid : Grid := fun _ _ => 0

/-- In-place cell assignment board[r][c] = v, as a functional update. -/
def setCell (g : Grid) (r c : Fin 9) (v : Nat) : Grid :=
  fun r' c' => if r' = r ∧ c' = c then v else g r' c'

theorem setCell_eq (g : Grid) (r c : Fin 9) (v : Nat) : setCell g r c v r c = v := by
  simp [setCell]

theorem setCell_ne (g : Grid) (r c : Fin 9) (v : Nat) {r' c' : Fin 9}
    (h : ¬(r' = r ∧ c' = c)) : setCell g r c v r' c' = g r' c' := by
  simp [setCell, h]

theorem setCell_eq' (g : Grid) (r c : Fin 9) (v : Nat) {a b : Fin 9}
    (h : a = r ∧ b = c) : setCell g r c v a b = v := by
  rw [h.1, h.2]; exact setCell_eq g r c v

theorem setCell_self (g : Grid) (r c : Fin 9) : setCell g r c (g r c) = g := by
  funext r' c'
  simp only [setCell]
  split
  · next h => rw [h.1, h.2]
  · rfl

theorem setCell_setCell (g : Grid) (r c : Fin 9) (v w : Nat) :
    setCell (setCell g r c v) r c w = setCell g r c w := by
  funext r' c'
  simp only [setCell]
  split <;> simp [*]

/-! ## The Fisher-Yates shuffle

Source: const shuffle = (array) => { for (let i = array.length - 1; i > 0; i--)
{ const j = Math.floor(Math.random() * (i + 1)); [array[i], array[j]] = [array[j], array[i]]; }
return array; };  The loop index i runs from length - 1 down to 1; at index i
the draw j is an arbitrary element of [0, i], recovered here as
rand i % (i + 1). -/

/-- The destructuring swap [array[i], array[j]] = [array[j], array[i]]; out-of-range
indices cannot occur in the source (both are < length) and are mapped to a no-op. -/
def swapAt {α : Type*} (l : List α) (i j : Nat) : List α :=
  match l[i]?, l[j]? with
  | some a, some b => (l.set i b).set j a
  | _, _ => l

def shuffleGo {α : Type*} (rand : Nat → Nat) : List α → Nat → List α
  | l, 0 => l
  | l, i + 1 => shuffleGo rand (swapAt l (i + 1) (rand (i + 1) % (i + 2))) i

def shuffle {α : Type*} (l : List α) (rand : Nat → Nat) : List α :=
  shuffleGo rand l (l.length - 1)

theorem cons_set_perm {α : Type*} (x : α) :
    ∀ (xs : List α) (n : Nat) (b : α), xs[n]? = some b →
      (b :: xs.set n x).Perm (x :: xs) := by
  intro xs
  induction xs with
  | nil => intro n b h; simp at h
  | cons y ys ih =>
    intro n b h
    cases n with
    | zero =>
      simp only [List.getElem?_cons_zero, Option.some.injEq] at h
      subst h
      simpa using List.Perm.swap x y ys
    | succ m =>
      simp only [List.getElem?_cons_succ] at h
      have h1 : (b :: y :: ys.set m x).Perm (y :: b :: ys.set m x) :=
        List.Perm.swap y b _
      have h2 : (y :: b :: ys.set m x).Perm (y :: x :: ys) :=
        List.Perm.cons y (ih m b h)
      have h3 : (y :: x :: ys).Perm (x :: y :: ys) := List.Perm.swap x y ys
      simpa using (h1.trans h2).trans h3

theorem set_set_perm {α : Type*} :
    ∀ (l : List α) (i j : Nat) (a b : α), l[i]? = some a → l[j]? = some b →
      ((l.set i b).set j a).Perm l := by
  intro l
  induction l with
  | nil => intro i j a b h; simp at h
  | cons x xs ih =>
    intro i j a b hi hj
    cases i with
    | zero =>
      simp only [List.getElem?_cons_zero, Option.some.injEq] at hi
      subst hi
      cases j with
      | zero =>
        simp only [List.getElem?_cons_zero, Option.some.injEq] at hj
        subst hj
        simp
      | succ m =>
        simp only [List.getElem?_cons_succ] at hj
        simpa using cons_set_perm x xs m b hj
    | succ n =>
      simp only [List.getElem?_cons_succ] at hi
      cases j with
      | zero =>
        simp only [List.getElem?_cons_zero, Option.some.injEq] at hj
        subst hj
        simpa using cons_set_perm x xs n a hi
      | succ m =>
        simp only [List.getElem?_cons_succ] at hj
        simpa using List.Perm.cons x (ih n m a b hi hj)

theorem swapAt_perm {α : Type*} (l : List α) (i j : Nat) : (swapAt l i j).Perm l := by
  unfold swapAt
  split
  · next a b hi hj => exact set_set_perm l i j a b hi hj
  · exact List.Perm.refl l

theorem shuffleGo_perm {α : Type*} (rand : Nat → Nat) :
    ∀ (n : Nat) (l : List α), (shuffleGo rand l n).Perm l := by
  intro n
  induction n with
  | zero => intro l; exact List.Perm.refl l
  | succ i ih =>
    intro l
    exact (ih _).trans (swapAt_perm l (i + 1) (rand (i + 1) % (i + 2)))

theorem shuffle_perm {α : Type*} (l : List α) (rand : Nat → Nat) :
    (shuffle l rand).Perm l :=
  shuffleGo_perm rand (l.length - 1) l

theorem shuffle_length {α : Type*} (l : List α) (rand : Nat → Nat) :
    (shuffle l rand).length = l.length :=
  (shuffle_perm l rand).length_eq

attribute [irreducible] swapAt shuffleGo shuffle

/-! ## The validity check

Source: const isValid = (board, row, col, num) => {
  for (let i = 0; i < 9; i++) { if (board[row][i] === num || board[i][col] === num) return false; }
  const startRow = Math.floor(row / 3) * 3, startCol = Math.floor(col / 3) * 3;
  for (let i = 0; i < 3; i++) for (let j = 0; j < 3; j++)
    if (board[startRow + i][startCol + j] === num) return false;
  return true; }; -/

/-- startRow + i (resp. startCol + j) for the 3x3 box scan: 3 * (x / 3) + i. -/
def boxIdx (x : Fin 9) (i : Fin 3) : Fin 9 := ⟨3 * (x.val / 3) + i.val, by omega⟩

def isValid (g : Grid) (r c : Fin 9) (num : Nat) : Bool :=
  decide (∀ i : Fin 9, g r i ≠ num ∧ g i c ≠ num) &&
  decide (∀ i j : Fin 3, g (boxIdx r i) (boxIdx c j) ≠ num)

/-! ## The backtracking filler

Source: const solve = (board) => {
  for (let r = 0; r < 9; r++) for (let c = 0; c < 9; c++) if (board[r][c] === 0) {
    const nums = shuffle([1, 2, 3, 4, 5, 6, 7, 8, 9]);
    for (const num of nums) if (isValid(board, r, c, num))
      { board[r][c] = num; if (solve(board)) return true; board[r][c] = 0; }
    return false;
  }
  return true; };

The nested r/c loops locate the first empty cell in row-major order; see the
header comment for why the rescan is carried as a position (rem = positions
still to scan, the current cell index is 80 - rem in the successor case). -/

def Digits : List Nat := [1, 2, 3, 4, 5, 6, 7, 8, 9]

/-- The type of digit lists produced by shuffle([1,...,9]); by
shuffle_perm every such list is a permutation of Digits. -/
def DigitPerm := {l : List Nat // l.Perm Digits}

/-- Row of the cell at scan position 80 - rem. -/
def posR (rem : Nat) : Fin 9 := ⟨(80 - rem) / 9, by omega⟩

/-- Column of the cell at scan position 80 - rem. -/
def posC (rem : Nat) : Fin 9 := ⟨(80 - rem) % 9, by omega⟩

/-- The for (const num of nums) loop of solve. -/
def solveNums (recur : Grid → Bool × Grid) (r c : Fin 9) :
    List Nat → Grid → Bool × Grid
  | [], g => (false, g)
  | num :: rest, g =>
    if isValid g r c num then
      let p := recur (setCell g r c num)
      if p.1 then (true, p.2)
      else solveNums recur r c rest (setCell p.2 r c 0)
    else solveNums recur r c rest g

def solveAux (orders : Grid → DigitPerm) : Nat → Grid → Bool × Grid
  | 0, g => (true, g)
  | rem + 1, g =>
    if g (posR rem) (posC rem) = 0 then
      solveNums (solveAux orders rem) (posR rem) (posC rem) (orders g).val g
    else solveAux orders rem g

/-- solve(board): the result flag together with the board after the call
(the source mutates its argument). -/
def solve (g : Grid) (orders : Grid → DigitPerm) : Bool × Grid :=
  solveAux orders 81 g

/-! ## The bounded solution counter

Source: const hasUniqueSolution = (board) => {
  let solutionCount = 0;
  const find = (b) => {
    let r = -1, c = -1;
    for (let i = 0; i < 81; i++) if (b[Math.floor(i/9)][i%9] === 0)
      { r = Math.floor(i/9); c = i%9; break; }
    if (r === -1) { solutionCount++; return; }
    for (let num = 1; num <= 9 && solutionCount <= 1; num++)
      if (isValid(b, r, c, num)) { b[r][c] = num; find(b); }
    b[r][c] = 0;
  };
  const boardCopy = JSON.parse(JSON.stringify(board));
  find(boardCopy);
  return solutionCount === 1; };

The mutable pair (board, solutionCount) is threaded explicitly; the digit
loop is findNums (note that unlike solve it does not clear the cell between
digits - the next placement overwrites it - and that the loop guard
solutionCount <= 1 is rechecked before every digit). -/

/-- The for (num = 1..9) loop of find. -/
def findNums (recur : Grid → Nat → Grid × Nat) (r c : Fin 9) :
    List Nat → Grid → Nat → Grid × Nat
  | [], g, cnt => (g, cnt)
  | num :: rest, g, cnt =>
    if cnt ≤ 1 then
      if isValid g r c num then
        let p := recur (setCell g r c num) cnt
        findNums recur r c rest p.1 p.2
      else findNums recur r c rest g cnt
    else (g, cnt)

/-- find, from scan position 81 - rem; at rem = 0 every position has been
scanned (r === -1 in the source) and the count is incremented. -/
def findFrom : Nat → Grid → Nat → Grid × Nat
  | 0, g, cnt => (g, cnt + 1)
  | rem + 1, g, cnt =>
    if g (posR rem) (posC rem) = 0 then
      let p := findNums (findFrom rem) (posR rem) (posC rem) Digits g cnt
      (setCell p.1 (posR rem) (posC rem) 0, p.2)
    else findFrom rem g cnt

/-- hasUniqueSolution(board): find runs on a deep copy, so in the value
semantics of the embedding it simply receives the board's value; the
caller's object is modelled separately in the heap section below. -/
def hasUniqueSolution (g : Grid) : Bool := (findFrom 81 g 0).2 == 1

/-! ## The generator

Source: const generatePuzzle = (diff) => {
  const grid = Array(9).fill().map(() => Array(9).fill(0));
  solve(grid);
  const solution = JSON.parse(JSON.stringify(grid));
  const difficultyMap = { easy: 38, medium: 46, hard: 53, expert: 59, master: 64 };
  let cellsToRemove = difficultyMap[diff] || 46;
  const cells = shuffle(Array.from({ length: 81 }, (_, i) => ({ r: Math.floor(i / 9), c: i % 9 })));
  while (cells.length > 0 && cellsToRemove > 0) {
    const { r, c } = cells.pop();
    const temp = grid[r][c];
    grid[r][c] = 0;
    if (!hasUniqueSolution(grid)) grid[r][c] = temp;
    else cellsToRemove--;
  }
  return { puzzle: grid, solution }; }; -/

/-- The string-keyed properties a plain object literal inherits from
Object.prototype: property lookup on difficultyMap with one of these names
yields the inherited function (or, for the proto accessor, the prototype
object) instead of undefined. -/
def protoKeys : List String :=
  ["constructor", "hasOwnProperty", "isPrototypeOf", "propertyIsEnumerable",
   "toLocaleString", "toString", "valueOf", "__proto__",
   "__defineGetter__", "__defineSetter__", "__lookupGetter__", "__lookupSetter__"]

/-- cellsToRemove = difficultyMap[diff] || 46, as it feeds the removal loop.
Three cases: (1) the five own keys yield their table number; (2) keys
inherited from Object.prototype yield a truthy non-number, so || 46 does not
fire and the loop guard cellsToRemove > 0 coerces it to NaN, which compares
false - the loop body never runs and cellsToRemove is never read again, so a
budget of 0 reproduces this behaviour exactly; (3) every other key yields
undefined and the || 46 fallback fires. -/
def difficultyTarget (diff : String) : Nat :=
  if diff = "easy" then 38
  else if diff = "medium" then 46
  else if diff = "hard" then 53
  else if diff = "expert" then 59
  else if diff = "master" then 64
  else if diff ∈ protoKeys then 0
  else 46

/-- Array.from({ length: 81 }, (_, i) => ({ r: Math.floor(i / 9), c: i % 9 })). -/
def coordList : List (Fin 9 × Fin 9) :=
  (List.range 81).attach.map
    (fun k => (⟨k.val / 9, by have := List.mem_range.mp k.property; omega⟩,
               ⟨k.val % 9, by omega⟩))

/-- The removal loop, iterating over the coordinates in pop order (the source
pops from the end of the shuffled array; the caller passes the reversed
list).  The second component counts the hasUniqueSolution calls made. -/
def popLoopN : Grid → List (Fin 9 × Fin 9) → Nat → Grid × Nat
  | g, _, 0 => (g, 0)
  | g, [], _ + 1 => (g, 0)
  | g, (r, c) :: rest, k + 1 =>
    let temp := g r c
    let g0 := setCell g r c 0
    if hasUniqueSolution g0 then
      let p := popLoopN g0 rest k
      (p.1, p.2 + 1)
    else
      let p := popLoopN (setCell g0 r c temp) rest (k + 1)
      (p.1, p.2 + 1)

def generatePuzzle (diff : String) (orders : Grid → DigitPerm) (rand : Nat → Nat) :
    Grid × Grid :=
  let grid := (solve emptyGrid orders).2
  let solution := grid
  let cells := shuffle coordList rand
  ((popLoopN grid cells.reverse (difficultyTarget diff)).1, solution)

/-- The number of uniqueness checks performed by the removal loop of a
generatePuzzle run. -/
def removalChecks (diff : String) (orders : Grid → DigitPerm) (rand : Nat → Nat) : Nat :=
  (popLoopN (solve emptyGrid orders).2 (shuffle coordList rand).reverse
    (difficultyTarget diff)).2

/-! ## Spec-side predicates -/

/-- Every cell is filled. -/
def Complete (g : Grid) : Prop := ∀ r c : Fin 9, g r c ≠ 0

/-- Every filled cell holds a digit 1-9. -/
def InRangeFilled (g : Grid) : Prop := ∀ r c : Fin 9, g r c ≠ 0 → 1 ≤ g r c ∧ g r c ≤ 9

/-- The two cells lie in the same 3x3 box. -/
def sameBox (r c r' c' : Fin 9) : Prop := r.val / 3 = r'.val / 3 ∧ c.val / 3 = c'.val / 3

/-- The two cells are Sudoku peers: same row, same column or same box. -/
def Peers (r c r' c' : Fin 9) : Prop := r = r' ∨ c = c' ∨ sameBox r c r' c'

/-- No filled cell clashes with a distinct peer. -/
def Consistent (g : Grid) : Prop :=
  ∀ r c r' c' : Fin 9, g r c ≠ 0 → (r, c) ≠ (r', c') → Peers r c r' c' → g r c ≠ g r' c'

/-- Every filled cell of p agrees with s (p is a sub-assignment of s). -/
def SubAssign (p s : Grid) : Prop := ∀ r c : Fin 9, p r c ≠ 0 → p r c = s r c

/-- The digit num appears nowhere in row r, column c or the box of (r, c),
the cell (r, c) itself excepted. -/
def NowhereElse (g : Grid) (r c : Fin 9) (num : Nat) : Prop :=
  (∀ i : Fin 9, i ≠ c → g r i ≠ num) ∧
  (∀ i : Fin 9, i ≠ r → g i c ≠ num) ∧
  (∀ i j : Fin 3, (boxIdx r i, boxIdx c j) ≠ (r, c) → g (boxIdx r i) (boxIdx c j) ≠ num)

/-- Each digit 1-9 appears exactly once in every row. -/
def ExactlyOnceRows (g : Grid) : Prop :=
  ∀ r : Fin 9, ∀ d : Nat, 1 ≤ d → d ≤ 9 → ∃! c : Fin 9, g r c = d

/-- Each digit 1-9 appears exactly once in every column. -/
def ExactlyOnceCols (g : Grid) : Prop :=
  ∀ c : Fin 9, ∀ d : Nat, 1 ≤ d → d ≤ 9 → ∃! r : Fin 9, g r c = d

/-- Cell row index of box (br, bc) at offset (i, j). -/
def boxCell (b : Fin 3) (i : Fin 3) : Fin 9 := ⟨3 * b.val + i.val, by omega⟩

/-- Each digit 1-9 appears exactly once in every 3x3 box. -/
def ExactlyOnceBoxes (g : Grid) : Prop :=
  ∀ br bc : Fin 3, ∀ d : Nat, 1 ≤ d → d ≤ 9 →
    ∃! p : Fin 3 × Fin 3, g (boxCell br p.1) (boxCell bc p.2) = d

/-- Number of empty cells of the grid. -/
def countEmpty (g : Grid) : Nat :=
  (Finset.univ.filter (fun p : Fin 9 × Fin 9 => g p.1 p.2 = 0)).card

/-- All scan positions k < m hold a non-empty cell (positions are row-major,
position k is cell (k / 9, k % 9)). -/
def FilledBelow (m : Nat) (g : Grid) : Prop :=
  ∀ k : Nat, k < m → ∀ hk : k < 81, g ⟨k / 9, by omega⟩ ⟨k % 9, by omega⟩ ≠ 0

/-- C4: for every grid, cell (row, col) and digit 1-9, with the cell itself
empty (it is being tested, not yet placed), isValid returns true exactly when
the digit appears nowhere else in row `row`, column `col`, or the 3x3 box of
(row, col); the cell itself is excluded from the nowhere-else reading, and
its inclusion in the scans of the code is harmless because it holds 0. -/
theorem isValid_iff_nowhereElse (g : Grid) (r c : Fin 9) (num : Nat)
    (h0 : g r c = 0) (h1 : 1 ≤ num) (h9 : num ≤ 9) :
    isValid g r c num = true ↔ NowhereElse g r c num := by
  unfold isValid NowhereElse
  rw [Bool.and_eq_true, decide_eq_true_iff, decide_eq_true_iff]
  constructor
  · rintro ⟨hline, hbox⟩
    exact ⟨fun i _ => (hline i).1, fun i _ => (hline i).2, fun i j _ => hbox i j⟩
  · rintro ⟨hrow, hcol, hbox⟩
    constructor
    · intro i
      constructor
      · by_cases hic : i = c
        · subst hic; rw [h0]; omega
        · exact hrow i hic
      · by_cases hir : i = r
        · subst hir; rw [h0]; omega
        · exact hcol i hir
    · intro i j
      by_cases hp : (boxIdx r i, boxIdx c j) = (r, c)
      · rw [Prod.mk.injEq] at hp
        rw [hp.1, hp.2, h0]; omega
      · exact hbox i j hp

/-! ## Basic facts about FilledBelow -/

theorem filledBelow_mono {m' m : Nat} (hle : m' ≤ m) {g : Grid}
    (h : FilledBelow m g) : FilledBelow m' g :=
  fun k hk hk81 => h k (lt_of_lt_of_le hk hle) hk81

theorem filledBelow_succ {m : Nat} {g : Grid} (h : FilledBelow m g)
    (hcell : ∀ hk : m < 81, g ⟨m / 9, by omega⟩ ⟨m % 9, by omega⟩ ≠ 0) :
    FilledBelow (m + 1) g := by
  intro k hk hk81
  rcases Nat.lt_succ_iff_lt_or_eq.mp hk with h' | h'
  · exact h k h' hk81
  · subst h'; exact hcell hk81

theorem complete_of_filledBelow {g : Grid} (h : FilledBelow 81 g) : Complete g := by
  intro r c
  have hk : 9 * r.val + c.val < 81 := by
    have := r.isLt; have := c.isLt; omega
  have hcell := h (9 * r.val + c.val) hk hk
  have hr : (⟨(9 * r.val + c.val) / 9, by omega⟩ : Fin 9) = r := by
    apply Fin.ext
    show (9 * r.val + c.val) / 9 = r.val
    have := c.isLt; omega
  have hc : (⟨(9 * r.val + c.val) % 9, by omega⟩ : Fin 9) = c := by
    apply Fin.ext
    show (9 * r.val + c.val) % 9 = c.val
    have := c.isLt; omega
  rwa [hr, hc] at hcell

theorem filledBelow_of_complete {g : Grid} (h : Complete g) (m : Nat) :
    FilledBelow m g :=
  fun _ _ _ => h _ _

theorem filledBelow_zero (g : Grid) : FilledBelow 0 g := fun k hk => absurd hk (by omega)

/-! ## Consequences of a successful isValid -/

theorem peers_symm {r c r' c' : Fin 9} (h : Peers r c r' c') : Peers r' c' r c := by
  rcases h with h | h | ⟨h1, h2⟩
  · exact Or.inl h.symm
  · exact Or.inr (Or.inl h.symm)
  · exact Or.inr (Or.inr ⟨h1.symm, h2.symm⟩)

theorem isValid_excludes {g : Grid} {r c : Fin 9} {num : Nat}
    (hline : ∀ i : Fin 9, g r i ≠ num ∧ g i c ≠ num)
    (hbox : ∀ i j : Fin 3, g (boxIdx r i) (boxIdx c j) ≠ num)
    {a b : Fin 9} (hp : Peers r c a b) : g a b ≠ num := by
  rcases hp with h | h | ⟨h1, h2⟩
  · rw [← h]; exact (hline b).1
  · rw [← h]; exact (hline a).2
  · have ha : boxIdx r ⟨a.val % 3, by omega⟩ = a := by
      apply Fin.ext
      simp only [boxIdx]
      omega
    have hb : boxIdx c ⟨b.val % 3, by omega⟩ = b := by
      apply Fin.ext
      simp only [boxIdx]
      omega
    have := hbox ⟨a.val % 3, by omega⟩ ⟨b.val % 3, by omega⟩
    rwa [ha, hb] at this

theorem consistent_setCell {g : Grid} (hg : Consistent g) {r c : Fin 9} {num : Nat}
    (hv : isValid g r c num = true) :
    Consistent (setCell g r c num) := by
  unfold isValid at hv
  rw [Bool.and_eq_true, decide_eq_true_iff, decide_eq_true_iff] at hv
  obtain ⟨hline, hbox⟩ := hv
  intro a b a' b' hne hpair hpeers
  by_cases hab : a = r ∧ b = c
  · by_cases hab' : a' = r ∧ b' = c
    · exfalso
      apply hpair
      rw [hab.1, hab.2, hab'.1, hab'.2]
    · rw [setCell_eq' g r c num hab, setCell_ne _ _ _ _ hab']
      have hpeers' : Peers r c a' b' := by
        rw [← hab.1, ← hab.2]; exact hpeers
      exact fun hcontra => isValid_excludes hline hbox hpeers' hcontra.symm
  · rw [setCell_ne _ _ _ _ hab] at hne ⊢
    by_cases hab' : a' = r ∧ b' = c
    · rw [setCell_eq' g r c num hab']
      have hpeers' : Peers r c a b := by
        rw [← hab'.1, ← hab'.2]; exact peers_symm hpeers
      exact isValid_excludes hline hbox hpeers'
    · rw [setCell_ne _ _ _ _ hab']
      exact hg a b a' b' hne hpair hpeers

theorem inRangeFilled_setCell {g : Grid} (h : InRangeFilled g) (r c : Fin 9)
    {num : Nat} (hnum : 1 ≤ num ∧ num ≤ 9) : InRangeFilled (setCell g r c num) := by
  intro a b hab
  by_cases hp : a = r ∧ b = c
  · rw [setCell_eq' g r c num hp]
    exact hnum
  · rw [setCell_ne _ _ _ _ hp] at hab ⊢
    exact h a b hab

theorem setCell_restore {g : Grid} {r c : Fin 9} (h0 : g r c = 0) :
    setCell g r c 0 = g := by
  conv_lhs => rw [← h0]
  exact setCell_self g r c

theorem consistent_empty : Consistent emptyGrid :=
  fun _ _ _ _ h _ _ => absurd rfl h

theorem inRangeFilled_empty : InRangeFilled emptyGrid :=
  fun _ _ h => absurd rfl h

theorem digitPerm_mem_bounds (o : DigitPerm) : ∀ n ∈ o.val, 1 ≤ n ∧ n ≤ 9 := by
  intro n hn
  have hmem : n ∈ Digits := o.property.mem_iff.mp hn
  have hall : ∀ m ∈ Digits, 1 ≤ m ∧ m ≤ 9 := by decide
  exact hall n hmem

/-! ## Unfolding helpers for the solve digit loop -/

theorem solveNums_cons_invalid {recur : Grid → Bool × Grid} {r c : Fin 9} {num : Nat}
    {g : Grid} (rest : List Nat) (hv : isValid g r c num = false) :
    solveNums recur r c (num :: rest) g = solveNums recur r c rest g := by
  simp [solveNums, hv]

theorem solveNums_cons_true {recur : Grid → Bool × Grid} {r c : Fin 9} {num : Nat}
    {g : Grid} (rest : List Nat) (hv : isValid g r c num = true)
    (ht : (recur (setCell g r c num)).1 = true) :
    solveNums recur r c (num :: rest) g = (true, (recur (setCell g r c num)).2) := by
  simp [solveNums, hv, ht]

theorem solveNums_cons_false {recur : Grid → Bool × Grid} {r c : Fin 9} {num : Nat}
    {g : Grid} (rest : List Nat) (hv : isValid g r c num = true)
    (hf : (recur (setCell g r c num)).1 = false) :
    solveNums recur r c (num :: rest) g =
      solveNums recur r c rest (setCell (recur (setCell g r c num)).2 r c 0) := by
  simp [solveNums, hv, hf]

theorem solveAux_succ_empty {orders : Grid → DigitPerm} {rem : Nat} {g : Grid}
    (h0 : g (posR rem) (posC rem) = 0) :
    solveAux orders (rem + 1) g =
      solveNums (solveAux orders rem) (posR rem) (posC rem) (orders g).val g := by
  simp [solveAux, h0]

theorem solveAux_succ_filled {orders : Grid → DigitPerm} {rem : Nat} {g : Grid}
    (h0 : ¬ g (posR rem) (posC rem) = 0) :
    solveAux orders (rem + 1) g = solveAux orders rem g := by
  simp [solveAux, h0]

/-! ## solve: restoration on failure (C6) -/

theorem solveNums_restore (recur : Grid → Bool × Grid) (r c : Fin 9)
    (hrec : ∀ g', (recur g').1 = false → (recur g').2 = g') :
    ∀ (nums : List Nat) (g : Grid), g r c = 0 →
      (solveNums recur r c nums g).1 = false → (solveNums recur r c nums g).2 = g := by
  intro nums
  induction nums with
  | nil => intro g _ _; rfl
  | cons num rest ih =>
    intro g h0 hfail
    by_cases hv : isValid g r c num
    · cases hp : (recur (setCell g r c num)).1 with
      | true =>
        rw [solveNums_cons_true rest hv hp] at hfail
        simp at hfail
      | false =>
        rw [solveNums_cons_false rest hv hp] at hfail ⊢
        rw [hrec _ hp, setCell_setCell, setCell_restore h0] at hfail ⊢
        exact ih g h0 hfail
    · rw [Bool.not_eq_true] at hv
      rw [solveNums_cons_invalid rest hv] at hfail ⊢
      exact ih g h0 hfail

theorem solveAux_restore (orders : Grid → DigitPerm) :
    ∀ (rem : Nat) (g : Grid), (solveAux orders rem g).1 = false →
      (solveAux orders rem g).2 = g := by
  intro rem
  induction rem with
  | zero => intro g h; simp [solveAux] at h
  | succ rem ih =>
    intro g h
    by_cases h0 : g (posR rem) (posC rem) = 0
    · rw [solveAux_succ_empty h0] at h ⊢
      exact solveNums_restore _ _ _ ih _ g h0 h
    · rw [solveAux_succ_filled h0] at h ⊢
      exact ih g h

/-! ## solve: on success the grid is complete, consistent and in range -/

theorem solveNums_success (recur : Grid → Bool × Grid) (r c : Fin 9) (m : Nat)
    (hrecR : ∀ g', (recur g').1 = false → (recur g').2 = g')
    (hrecS : ∀ g', FilledBelow m g' → Consistent g' → InRangeFilled g' →
      (recur g').1 = true →
      Complete (recur g').2 ∧ Consistent (recur g').2 ∧ InRangeFilled (recur g').2) :
    ∀ (nums : List Nat) (g : Grid), g r c = 0 → Consistent g → InRangeFilled g →
      (∀ n ∈ nums, 1 ≤ n ∧ n ≤ 9) →
      (∀ num : Nat, num ≠ 0 → FilledBelow m (setCell g r c num)) →
      (solveNums recur r c nums g).1 = true →
      Complete (solveNums recur r c nums g).2 ∧
        Consistent (solveNums recur r c nums g).2 ∧
        InRangeFilled (solveNums recur r c nums g).2 := by
  intro nums
  induction nums with
  | nil => intro g _ _ _ _ _ hsucc; simp [solveNums] at hsucc
  | cons num rest ih =>
    intro g h0 hcons hir hbound hfb hsucc
    by_cases hv : isValid g r c num
    · cases hp : (recur (setCell g r c num)).1 with
      | true =>
        rw [solveNums_cons_true rest hv hp]
        have hnum := hbound num (List.mem_cons_self num rest)
        have h1 := hrecS (setCell g r c num)
          (hfb num (by omega))
          (consistent_setCell hcons hv)
          (inRangeFilled_setCell hir r c hnum)
          hp
        simpa using h1
      | false =>
        rw [solveNums_cons_false rest hv hp, hrecR _ hp, setCell_setCell,
          setCell_restore h0]
        exact ih g h0 hcons hir (fun n hn => hbound n (List.mem_cons_of_mem num hn)) hfb
          (by rw [solveNums_cons_false rest hv hp] at hsucc
              rwa [hrecR _ hp, setCell_setCell, setCell_restore h0] at hsucc)
    · rw [Bool.not_eq_true] at hv
      rw [solveNums_cons_invalid rest hv]
      exact ih g h0 hcons hir (fun n hn => hbound n (List.mem_cons_of_mem num hn)) hfb
        (by rwa [solveNums_cons_invalid rest hv] at hsucc)

/-- The cell at scan position 80 - rem agrees with the cell through which
FilledBelow speaks about that position. -/
theorem filledBelow_posCell {m rem : Nat} {g : Grid} (h : FilledBelow m g)
    (hrem : 80 - rem < m) : g (posR rem) (posC rem) ≠ 0 :=
  h (80 - rem) hrem (by omega)

theorem filledBelow_setCell_pos {rem : Nat} {g : Grid}
    (hfb : FilledBelow (81 - (rem + 1)) g) {num : Nat} (hnum : num ≠ 0) :
    FilledBelow (81 - rem) (setCell g (posR rem) (posC rem) num) := by
  apply filledBelow_mono (show 81 - rem ≤ (80 - rem) + 1 by omega)
  apply filledBelow_succ
  · intro k hk hk81
    rw [setCell_ne]
    · exact hfb k (by omega) hk81
    · rintro ⟨hr, hc⟩
      have hr' : k / 9 = (80 - rem) / 9 := congrArg Fin.val hr
      have hc' : k % 9 = (80 - rem) % 9 := congrArg Fin.val hc
      omega
  · intro hk
    show setCell g (posR rem) (posC rem) num (posR rem) (posC rem) ≠ 0
    rw [setCell_eq]
    exact hnum

theorem filledBelow_succ_pos {rem : Nat} {g : Grid}
    (hfb : FilledBelow (81 - (rem + 1)) g) (h0 : g (posR rem) (posC rem) ≠ 0) :
    FilledBelow (81 - rem) g := by
  apply filledBelow_mono (show 81 - rem ≤ (80 - rem) + 1 by omega)
  apply filledBelow_succ
  · intro k hk hk81
    exact hfb k (by omega) hk81
  · intro _
    exact h0

theorem solveAux_success (orders : Grid → DigitPerm) :
    ∀ (rem : Nat) (g : Grid), FilledBelow (81 - rem) g → Consistent g →
      InRangeFilled g → (solveAux orders rem g).1 = true →
      Complete (solveAux orders rem g).2 ∧ Consistent (solveAux orders rem g).2 ∧
        InRangeFilled (solveAux orders rem g).2 := by
  intro rem
  induction rem with
  | zero =>
    intro g hfb hcons hir _
    exact ⟨complete_of_filledBelow hfb, hcons, hir⟩
  | succ rem ih =>
    intro g hfb hcons hir hsucc
    by_cases h0 : g (posR rem) (posC rem) = 0
    · rw [solveAux_succ_empty h0] at hsucc ⊢
      exact solveNums_success (solveAux orders rem) (posR rem) (posC rem) (81 - rem)
        (solveAux_restore orders rem) (ih) ((orders g).val) g h0 hcons hir
        (digitPerm_mem_bounds (orders g))
        (fun num hnum => filledBelow_setCell_pos hfb hnum)
        hsucc
    · rw [solveAux_succ_filled h0] at hsucc ⊢
      exact ih g (filledBelow_succ_pos hfb h0) hcons hir hsucc

/-- On success, solve leaves a complete, consistent, in-range grid. -/
theorem solve_success {g : Grid} {orders : Grid → DigitPerm}
    (hcons : Consistent g) (hir : InRangeFilled g)
    (hsucc : (solve g orders).1 = true) :
    Complete (solve g orders).2 ∧ Consistent (solve g orders).2 ∧
      InRangeFilled (solve g orders).2 :=
  solveAux_success orders 81 g (by intro k hk _; omega) hcons hir hsucc

/-! ## Pigeonhole: complete + consistent + in range gives exactly-once rows,
columns and boxes -/

theorem boxCell_val (b i : Fin 3) : (boxCell b i).val = 3 * b.val + i.val := rfl

theorem rows_exact {g : Grid} (hC : Complete g) (hc : Consistent g)
    (hir : InRangeFilled g) : ExactlyOnceRows g := by
  intro r d h1 h9
  have hrange : ∀ c : Fin 9, 1 ≤ g r c ∧ g r c ≤ 9 := fun c => hir r c (hC r c)
  set f : Fin 9 → Fin 9 := fun c =>
    ⟨g r c - 1, by have := (hrange c).1; have := (hrange c).2; omega⟩ with hf
  have hinj : Function.Injective f := by
    intro c1 c2 heq
    by_contra hne
    apply hc r c1 r c2 (hC r c1) (by simp [hne]) (Or.inl rfl)
    have hval : g r c1 - 1 = g r c2 - 1 := congrArg Fin.val heq
    have := (hrange c1).1; have := (hrange c2).1
    omega
  have hsurj : Function.Surjective f := Finite.injective_iff_surjective.mp hinj
  obtain ⟨c0, hc0⟩ := hsurj ⟨d - 1, by omega⟩
  have hc0' : g r c0 = d := by
    have hval : g r c0 - 1 = d - 1 := congrArg Fin.val hc0
    have := (hrange c0).1
    omega
  refine ⟨c0, hc0', fun c1 hc1 => ?_⟩
  apply hinj
  rw [hc0]
  apply Fin.ext
  show g r c1 - 1 = d - 1
  rw [hc1]

theorem cols_exact {g : Grid} (hC : Complete g) (hc : Consistent g)
    (hir : InRangeFilled g) : ExactlyOnceCols g := by
  intro c d h1 h9
  have hrange : ∀ r : Fin 9, 1 ≤ g r c ∧ g r c ≤ 9 := fun r => hir r c (hC r c)
  set f : Fin 9 → Fin 9 := fun r =>
    ⟨g r c - 1, by have := (hrange r).1; have := (hrange r).2; omega⟩ with hf
  have hinj : Function.Injective f := by
    intro r1 r2 heq
    by_contra hne
    apply hc r1 c r2 c (hC r1 c) (by simp [hne]) (Or.inr (Or.inl rfl))
    have hval : g r1 c - 1 = g r2 c - 1 := congrArg Fin.val heq
    have := (hrange r1).1; have := (hrange r2).1
    omega
  have hsurj : Function.Surjective f := Finite.injective_iff_surjective.mp hinj
  obtain ⟨r0, hr0⟩ := hsurj ⟨d - 1, by omega⟩
  have hr0' : g r0 c = d := by
    have hval : g r0 c - 1 = d - 1 := congrArg Fin.val hr0
    have := (hrange r0).1
    omega
  refine ⟨r0, hr0', fun r1 hr1 => ?_⟩
  apply hinj
  rw [hr0]
  apply Fin.ext
  show g r1 c - 1 = d - 1
  rw [hr1]

theorem boxes_exact {g : Grid} (hC : Complete g) (hc : Consistent g)
    (hir : InRangeFilled g) : ExactlyOnceBoxes g := by
  intro br bc d h1 h9
  have hrange : ∀ p : Fin 3 × Fin 3,
      1 ≤ g (boxCell br p.1) (boxCell bc p.2) ∧ g (boxCell br p.1) (boxCell bc p.2) ≤ 9 :=
    fun p => hir _ _ (hC _ _)
  set f : Fin 3 × Fin 3 → Fin 9 := fun p =>
    ⟨g (boxCell br p.1) (boxCell bc p.2) - 1,
     by have := (hrange p).1; have := (hrange p).2; omega⟩ with hf
  have hinj : Function.Injective f := by
    intro p1 p2 heq
    by_contra hne
    apply hc (boxCell br p1.1) (boxCell bc p1.2) (boxCell br p2.1) (boxCell bc p2.2)
      (hC _ _)
    · intro hpair
      rw [Prod.mk.injEq] at hpair
      apply hne
      have e1 : (boxCell br p1.1).val = (boxCell br p2.1).val := congrArg Fin.val hpair.1
      have e2 : (boxCell bc p1.2).val = (boxCell bc p2.2).val := congrArg Fin.val hpair.2
      rw [boxCell_val, boxCell_val] at e1 e2
      have i1 := p1.1.isLt; have i2 := p2.1.isLt
      have j1 := p1.2.isLt; have j2 := p2.2.isLt
      have hfst : p1.1 = p2.1 := Fin.ext (by omega)
      have hsnd : p1.2 = p2.2 := Fin.ext (by omega)
      exact Prod.ext hfst hsnd
    · refine Or.inr (Or.inr ⟨?_, ?_⟩)
      · show (boxCell br p1.1).val / 3 = (boxCell br p2.1).val / 3
        rw [boxCell_val, boxCell_val]
        have i1 := p1.1.isLt; have i2 := p2.1.isLt
        omega
      · show (boxCell bc p1.2).val / 3 = (boxCell bc p2.2).val / 3
        rw [boxCell_val, boxCell_val]
        have j1 := p1.2.isLt; have j2 := p2.2.isLt
        omega
    · have hval : g (boxCell br p1.1) (boxCell bc p1.2) - 1 =
          g (boxCell br p2.1) (boxCell bc p2.2) - 1 := congrArg Fin.val heq
      have := (hrange p1).1; have := (hrange p2).1
      omega
  have hsurj : Function.Surjective f := by
    have hbij := (Fintype.bijective_iff_injective_and_card f).mpr ⟨hinj, by simp⟩
    exact hbij.2
  obtain ⟨p0, hp0⟩ := hsurj ⟨d - 1, by omega⟩
  have hp0' : g (boxCell br p0.1) (boxCell bc p0.2) = d := by
    have hval : g (boxCell br p0.1) (boxCell bc p0.2) - 1 = d - 1 := congrArg Fin.val hp0
    have := (hrange p0).1
    omega
  refine ⟨p0, hp0', fun p1 hp1 => ?_⟩
  apply hinj
  rw [hp0]
  apply Fin.ext
  show g (boxCell br p1.1) (boxCell bc p1.2) - 1 = d - 1
  rw [hp1]

/-! ## Unfolding helpers for the find digit loop -/

theorem findNums_cons_stop {recur : Grid → Nat → Grid × Nat} {r c : Fin 9} {num : Nat}
    {g : Grid} {cnt : Nat} (rest : List Nat) (h : ¬ cnt ≤ 1) :
    findNums recur r c (num :: rest) g cnt = (g, cnt) := by
  simp [findNums, h]

theorem findNums_cons_invalid {recur : Grid → Nat → Grid × Nat} {r c : Fin 9} {num : Nat}
    {g : Grid} {cnt : Nat} (rest : List Nat) (h : cnt ≤ 1)
    (hv : isValid g r c num = false) :
    findNums recur r c (num :: rest) g cnt = findNums recur r c rest g cnt := by
  simp [findNums, h, hv]

theorem findNums_cons_valid {recur : Grid → Nat → Grid × Nat} {r c : Fin 9} {num : Nat}
    {g : Grid} {cnt : Nat} (rest : List Nat) (h : cnt ≤ 1)
    (hv : isValid g r c num = true) :
    findNums recur r c (num :: rest) g cnt =
      findNums recur r c rest (recur (setCell g r c num) cnt).1
        (recur (setCell g r c num) cnt).2 := by
  simp [findNums, h, hv]

theorem findFrom_succ_empty {rem : Nat} {g : Grid} {cnt : Nat}
    (h0 : g (posR rem) (posC rem) = 0) :
    findFrom (rem + 1) g cnt =
      (setCell (findNums (findFrom rem) (posR rem) (posC rem) Digits g cnt).1
        (posR rem) (posC rem) 0,
       (findNums (findFrom rem) (posR rem) (posC rem) Digits g cnt).2) := by
  simp [findFrom, h0]

theorem findFrom_succ_filled {rem : Nat} {g : Grid} {cnt : Nat}
    (h0 : ¬ g (posR rem) (posC rem) = 0) :
    findFrom (rem + 1) g cnt = findFrom rem g cnt := by
  simp [findFrom, h0]

/-! ## find restores its board -/

theorem findNums_grid (recur : Grid → Nat → Grid × Nat) (r c : Fin 9)
    (hrec : ∀ g' cnt', (recur g' cnt').1 = g') :
    ∀ (nums : List Nat) (g : Grid) (cnt : Nat),
      (findNums recur r c nums g cnt).1 = g ∨
        ∃ d : Nat, (findNums recur r c nums g cnt).1 = setCell g r c d := by
  intro nums
  induction nums with
  | nil => intro g cnt; left; rfl
  | cons num rest ih =>
    intro g cnt
    by_cases h : cnt ≤ 1
    · by_cases hv : isValid g r c num
      · rw [findNums_cons_valid rest h hv, hrec]
        rcases ih (setCell g r c num) ((recur (setCell g r c num) cnt).2) with h1 | ⟨d, h1⟩
        · exact Or.inr ⟨num, h1⟩
        · exact Or.inr ⟨d, by rw [h1, setCell_setCell]⟩
      · rw [Bool.not_eq_true] at hv
        rw [findNums_cons_invalid rest h hv]
        exact ih g cnt
    · rw [findNums_cons_stop rest h]
      exact Or.inl rfl

theorem findFrom_grid : ∀ (rem : Nat) (g : Grid) (cnt : Nat),
    (findFrom rem g cnt).1 = g := by
  intro rem
  induction rem with
  | zero => intro g cnt; rfl
  | succ rem ih =>
    intro g cnt
    by_cases h0 : g (posR rem) (posC rem) = 0
    · rw [findFrom_succ_empty h0]
      rcases findNums_grid (findFrom rem) (posR rem) (posC rem)
          (fun g' c' => ih g' c') Digits g cnt with h | ⟨d, h⟩
      · show setCell _ _ _ 0 = g
        rw [h]
        exact setCell_restore h0
      · show setCell _ _ _ 0 = g
        rw [h, setCell_setCell]
        exact setCell_restore h0
    · rw [findFrom_succ_filled h0]
      exact ih g cnt

/-! ## Count bounds for find -/

theorem findNums_mono (recur : Grid → Nat → Grid × Nat) (r c : Fin 9)
    (hrec : ∀ g' c', c' ≤ (recur g' c').2) :
    ∀ (nums : List Nat) (g : Grid) (cnt : Nat),
      cnt ≤ (findNums recur r c nums g cnt).2 := by
  intro nums
  induction nums with
  | nil => intro g cnt; exact Nat.le_refl cnt
  | cons num rest ih =>
    intro g cnt
    by_cases h : cnt ≤ 1
    · by_cases hv : isValid g r c num
      · rw [findNums_cons_valid rest h hv]
        exact le_trans (hrec (setCell g r c num) cnt) (ih _ _)
      · rw [Bool.not_eq_true] at hv
        rw [findNums_cons_invalid rest h hv]
        exact ih g cnt
    · rw [findNums_cons_stop rest h]

theorem findFrom_mono : ∀ (rem : Nat) (g : Grid) (cnt : Nat),
    cnt ≤ (findFrom rem g cnt).2 := by
  intro rem
  induction rem with
  | zero => intro g cnt; exact Nat.le_succ cnt
  | succ rem ih =>
    intro g cnt
    by_cases h0 : g (posR rem) (posC rem) = 0
    · rw [findFrom_succ_empty h0]
      exact findNums_mono (findFrom rem) _ _ (fun g' c' => ih g' c') Digits g cnt
    · rw [findFrom_succ_filled h0]
      exact ih g cnt

theorem findNums_le_two (recur : Grid → Nat → Grid × Nat) (r c : Fin 9)
    (hrec : ∀ g' c', c' ≤ 1 → (recur g' c').2 ≤ 2) :
    ∀ (nums : List Nat) (g : Grid) (cnt : Nat),
      cnt ≤ 2 → (findNums recur r c nums g cnt).2 ≤ 2 := by
  intro nums
  induction nums with
  | nil => intro g cnt h; exact h
  | cons num rest ih =>
    intro g cnt hcnt
    by_cases h : cnt ≤ 1
    · by_cases hv : isValid g r c num
      · rw [findNums_cons_valid rest h hv]
        exact ih _ _ (hrec (setCell g r c num) cnt h)
      · rw [Bool.not_eq_true] at hv
        rw [findNums_cons_invalid rest h hv]
        exact ih g cnt hcnt
    · rw [findNums_cons_stop rest h]
      exact hcnt

theorem findFrom_le_two : ∀ (rem : Nat) (g : Grid) (cnt : Nat),
    cnt ≤ 1 → (findFrom rem g cnt).2 ≤ 2 := by
  intro rem
  induction rem with
  | zero => intro g cnt h; show cnt + 1 ≤ 2; omega
  | succ rem ih =>
    intro g cnt hcnt
    by_cases h0 : g (posR rem) (posC rem) = 0
    · rw [findFrom_succ_empty h0]
      exact findNums_le_two (findFrom rem) _ _ (fun g' c' h => ih g' c' h)
        Digits g cnt (by omega)
    · rw [findFrom_succ_filled h0]
      exact ih g cnt hcnt

/-- On a complete grid find scans to the end and counts one solution. -/
theorem findFrom_complete : ∀ (rem : Nat) (g : Grid) (cnt : Nat), Complete g →
    findFrom rem g cnt = (g, cnt + 1) := by
  intro rem
  induction rem with
  | zero => intro g cnt _; rfl
  | succ rem ih =>
    intro g cnt hC
    rw [findFrom_succ_filled (hC (posR rem) (posC rem))]
    exact ih g cnt hC

theorem hasUnique_of_complete {g : Grid} (hC : Complete g) :
    hasUniqueSolution g = true := by
  unfold hasUniqueSolution
  rw [findFrom_complete 81 g 0 hC]
  rfl

/-! ## The removal loop -/

theorem popLoopN_zero (g : Grid) (cells : List (Fin 9 × Fin 9)) :
    popLoopN g cells 0 = (g, 0) := by
  cases cells <;> rfl

theorem popLoopN_nil (g : Grid) (k : Nat) : popLoopN g [] k = (g, 0) := by
  cases k <;> rfl

theorem popLoopN_cons_commit {g : Grid} {r c : Fin 9}
    {rest : List (Fin 9 × Fin 9)} {k : Nat}
    (hU : hasUniqueSolution (setCell g r c 0) = true) :
    popLoopN g ((r, c) :: rest) (k + 1) =
      ((popLoopN (setCell g r c 0) rest k).1,
       (popLoopN (setCell g r c 0) rest k).2 + 1) := by
  simp [popLoopN, hU]

theorem popLoopN_cons_reject {g : Grid} {r c : Fin 9}
    {rest : List (Fin 9 × Fin 9)} {k : Nat}
    (hU : hasUniqueSolution (setCell g r c 0) = false) :
    popLoopN g ((r, c) :: rest) (k + 1) =
      ((popLoopN (setCell (setCell g r c 0) r c (g r c)) rest (k + 1)).1,
       (popLoopN (setCell (setCell g r c 0) r c (g r c)) rest (k + 1)).2 + 1) := by
  simp [popLoopN, hU]

/-- Restoring the remembered value brings back the original grid. -/
theorem setCell_zero_restore (g : Grid) (r c : Fin 9) :
    setCell (setCell g r c 0) r c (g r c) = g := by
  rw [setCell_setCell]
  exact setCell_self g r c

theorem popLoopN_unique : ∀ (cells : List (Fin 9 × Fin 9)) (g : Grid) (k : Nat),
    hasUniqueSolution g = true → hasUniqueSolution (popLoopN g cells k).1 = true := by
  intro cells
  induction cells with
  | nil => intro g k hg; rw [popLoopN_nil]; exact hg
  | cons p rest ih =>
    obtain ⟨r, c⟩ := p
    intro g k hg
    cases k with
    | zero => rw [popLoopN_zero]; exact hg
    | succ k =>
      by_cases hU : hasUniqueSolution (setCell g r c 0) = true
      · rw [popLoopN_cons_commit hU]
        exact ih _ k hU
      · rw [Bool.not_eq_true] at hU
        rw [popLoopN_cons_reject hU, setCell_zero_restore]
        exact ih g (k + 1) hg

theorem subAssign_setCell_zero {g s : Grid} (h : SubAssign g s) (r c : Fin 9) :
    SubAssign (setCell g r c 0) s := by
  intro a b hab
  by_cases hp : a = r ∧ b = c
  · rw [setCell_eq' _ _ _ _ hp] at hab
    exact absurd rfl hab
  · rw [setCell_ne _ _ _ _ hp] at hab ⊢
    exact h a b hab

theorem popLoopN_subAssign (s : Grid) :
    ∀ (cells : List (Fin 9 × Fin 9)) (g : Grid) (k : Nat),
      SubAssign g s → SubAssign (popLoopN g cells k).1 s := by
  intro cells
  induction cells with
  | nil => intro g k hg; rw [popLoopN_nil]; exact hg
  | cons p rest ih =>
    obtain ⟨r, c⟩ := p
    intro g k hg
    cases k with
    | zero => rw [popLoopN_zero]; exact hg
    | succ k =>
      by_cases hU : hasUniqueSolution (setCell g r c 0) = true
      · rw [popLoopN_cons_commit hU]
        exact ih _ k (subAssign_setCell_zero hg r c)
      · rw [Bool.not_eq_true] at hU
        rw [popLoopN_cons_reject hU, setCell_zero_restore]
        exact ih g (k + 1) hg

theorem countEmpty_setCell_zero_le (g : Grid) (r c : Fin 9) :
    countEmpty (setCell g r c 0) ≤ countEmpty g + 1 := by
  unfold countEmpty
  have hsub : Finset.univ.filter (fun p : Fin 9 × Fin 9 => setCell g r c 0 p.1 p.2 = 0) ⊆
      insert (r, c) (Finset.univ.filter (fun p : Fin 9 × Fin 9 => g p.1 p.2 = 0)) := by
    intro p hp
    rw [Finset.mem_filter] at hp
    by_cases hpr : p = (r, c)
    · rw [hpr]
      exact Finset.mem_insert_self _ _
    · apply Finset.mem_insert_of_mem
      rw [Finset.mem_filter]
      refine ⟨Finset.mem_univ p, ?_⟩
      have hne : ¬(p.1 = r ∧ p.2 = c) := fun hcon => hpr (Prod.ext hcon.1 hcon.2)
      rw [setCell_ne _ _ _ _ hne] at hp
      exact hp.2
  exact le_trans (Finset.card_le_card hsub) (Finset.card_insert_le _ _)

theorem countEmpty_complete {g : Grid} (hC : Complete g) : countEmpty g = 0 := by
  unfold countEmpty
  rw [Finset.card_eq_zero, Finset.filter_eq_empty_iff]
  intro p _
  exact hC p.1 p.2

theorem popLoopN_countEmpty : ∀ (cells : List (Fin 9 × Fin 9)) (g : Grid) (k : Nat),
    countEmpty (popLoopN g cells k).1 ≤ countEmpty g + k := by
  intro cells
  induction cells with
  | nil => intro g k; rw [popLoopN_nil]; show countEmpty g ≤ countEmpty g + k; omega
  | cons p rest ih =>
    obtain ⟨r, c⟩ := p
    intro g k
    cases k with
    | zero => rw [popLoopN_zero]; show countEmpty g ≤ countEmpty g + 0; omega
    | succ k =>
      by_cases hU : hasUniqueSolution (setCell g r c 0) = true
      · rw [popLoopN_cons_commit hU]
        show countEmpty (popLoopN (setCell g r c 0) rest k).1 ≤ countEmpty g + (k + 1)
        have h1 := ih (setCell g r c 0) k
        have h2 := countEmpty_setCell_zero_le g r c
        omega
      · rw [Bool.not_eq_true] at hU
        rw [popLoopN_cons_reject hU, setCell_zero_restore]
        exact ih g (k + 1)

theorem popLoopN_checks : ∀ (cells : List (Fin 9 × Fin 9)) (g : Grid) (k : Nat),
    (popLoopN g cells k).2 ≤ cells.length := by
  intro cells
  induction cells with
  | nil => intro g k; rw [popLoopN_nil]; exact Nat.zero_le _
  | cons p rest ih =>
    obtain ⟨r, c⟩ := p
    intro g k
    cases k with
    | zero => rw [popLoopN_zero]; exact Nat.zero_le _
    | succ k =>
      by_cases hU : hasUniqueSolution (setCell g r c 0) = true
      · rw [popLoopN_cons_commit hU]
        have := ih (setCell g r c 0) k
        simpa using Nat.add_le_add_right this 1
      · rw [Bool.not_eq_true] at hU
        rw [popLoopN_cons_reject hU]
        have := ih (setCell (setCell g r c 0) r c (g r c)) (k + 1)
        simpa using Nat.add_le_add_right this 1

/-! ## Completions of a partial grid

A completion of p is a full grid of digits 1-9, satisfying the Sudoku
constraints, that agrees with p on every filled cell of p.  Candidate
completions are coded as functions into Fin 9 (digit minus one) so that they
form a Fintype and can be counted. -/

def IsCompletion (p f : Grid) : Prop :=
  (∀ r c : Fin 9, 1 ≤ f r c ∧ f r c ≤ 9) ∧ Consistent f ∧ SubAssign p f

def toGrid (f : Fin 9 → Fin 9 → Fin 9) : Grid := fun r c => (f r c).val + 1

instance (r c r' c' : Fin 9) : Decidable (sameBox r c r' c') :=
  inferInstanceAs (Decidable (r.val / 3 = r'.val / 3 ∧ c.val / 3 = c'.val / 3))

instance (r c r' c' : Fin 9) : Decidable (Peers r c r' c') :=
  inferInstanceAs (Decidable (r = r' ∨ c = c' ∨ sameBox r c r' c'))

instance (g : Grid) : Decidable (Consistent g) :=
  inferInstanceAs (Decidable (∀ r c r' c' : Fin 9,
    g r c ≠ 0 → (r, c) ≠ (r', c') → Peers r c r' c' → g r c ≠ g r' c'))

instance (p s : Grid) : Decidable (SubAssign p s) :=
  inferInstanceAs (Decidable (∀ r c : Fin 9, p r c ≠ 0 → p r c = s r c))

instance (p f : Grid) : Decidable (IsCompletion p f) :=
  inferInstanceAs (Decidable ((∀ r c : Fin 9, 1 ≤ f r c ∧ f r c ≤ 9) ∧
    Consistent f ∧ SubAssign p f))

/-- The (finite) set of coded completions of p. -/
def CompSet (p : Grid) : Finset (Fin 9 → Fin 9 → Fin 9) :=
  Finset.univ.filter (fun f => IsCompletion p (toGrid f))

theorem mem_CompSet {p : Grid} {f : Fin 9 → Fin 9 → Fin 9} :
    f ∈ CompSet p ↔ IsCompletion p (toGrid f) := by
  simp [CompSet]

theorem toGrid_inj : Function.Injective toGrid := by
  intro f1 f2 h
  funext r c
  have hrc := congrFun (congrFun h r) c
  exact Fin.ext (by simpa [toGrid] using hrc)

theorem compSet_card_le_one_of_complete {g : Grid} (hC : Complete g) :
    (CompSet g).card ≤ 1 := by
  rw [Finset.card_le_one]
  intro f1 h1 f2 h2
  rw [mem_CompSet] at h1 h2
  have e1 : toGrid f1 = g := by
    funext r c
    exact (h1.2.2 r c (hC r c)).symm
  have e2 : toGrid f2 = g := by
    funext r c
    exact (h2.2.2 r c (hC r c)).symm
  exact toGrid_inj (e1.trans e2.symm)

theorem subAssign_setCell_iff {g : Grid} {r c : Fin 9} (h0 : g r c = 0) {d : Nat}
    (hd : d ≠ 0) (F : Grid) :
    SubAssign (setCell g r c d) F ↔ SubAssign g F ∧ F r c = d := by
  constructor
  · intro h
    refine ⟨?_, ?_⟩
    · intro a b hab
      by_cases hp : a = r ∧ b = c
      · rw [hp.1, hp.2] at hab
        exact absurd h0 hab
      · have := h a b (by rw [setCell_ne _ _ _ _ hp]; exact hab)
        rwa [setCell_ne _ _ _ _ hp] at this
    · have := h r c (by rw [setCell_eq]; exact hd)
      rw [setCell_eq] at this
      exact this.symm
  · rintro ⟨hsub, hF⟩
    intro a b hab
    by_cases hp : a = r ∧ b = c
    · rw [setCell_eq' _ _ _ _ hp] at hab ⊢
      rw [hp.1, hp.2, hF]
    · rw [setCell_ne _ _ _ _ hp] at hab ⊢
      exact hsub a b hab

theorem compSet_setCell {g : Grid} {r c : Fin 9} (h0 : g r c = 0) {d : Nat}
    (h1 : 1 ≤ d) (h9 : d ≤ 9) :
    CompSet (setCell g r c d) =
      (CompSet g).filter (fun f => (f r c).val + 1 = d) := by
  ext f
  rw [Finset.mem_filter, mem_CompSet, mem_CompSet]
  unfold IsCompletion
  rw [subAssign_setCell_iff h0 (by omega) (toGrid f)]
  constructor
  · rintro ⟨hA, hB, hS, hF⟩
    exact ⟨⟨hA, hB, hS⟩, hF⟩
  · rintro ⟨⟨hA, hB, hS⟩, hF⟩
    exact ⟨hA, hB, hS, hF⟩

/-- A completion of setCell g r c d yields a Sudoku contradiction as soon as
some peer of (r, c) already holds d in g. -/
theorem completion_conflict {g : Grid} {r c : Fin 9} {d : Nat} (h0 : g r c = 0)
    (h1 : 1 ≤ d) {f : Fin 9 → Fin 9 → Fin 9} (hcons : Consistent (toGrid f))
    (hsub : SubAssign (setCell g r c d) (toGrid f))
    {a b : Fin 9} (hab : g a b = d) (hpeers : Peers r c a b) : False := by
  have hne : ¬(a = r ∧ b = c) := by
    rintro ⟨ha, hb⟩
    rw [ha, hb, h0] at hab
    omega
  have hFab : toGrid f a b = d := by
    have := hsub a b (by rw [setCell_ne _ _ _ _ hne, hab]; omega)
    rw [setCell_ne _ _ _ _ hne, hab] at this
    exact this.symm
  have hFrc : toGrid f r c = d := by
    have := hsub r c (by rw [setCell_eq]; omega)
    rw [setCell_eq] at this
    exact this.symm
  have hpairne : (r, c) ≠ (a, b) := by
    rw [Ne, Prod.mk.injEq]
    rintro ⟨ha, hb⟩
    exact hne ⟨ha.symm, hb.symm⟩
  exact hcons r c a b (by rw [hFrc]; omega) hpairne hpeers (by rw [hFrc, hFab])

theorem compSet_invalid_empty {g : Grid} {r c : Fin 9} (h0 : g r c = 0) {d : Nat}
    (h1 : 1 ≤ d) (_h9 : d ≤ 9) (hv : isValid g r c d = false) :
    CompSet (setCell g r c d) = ∅ := by
  rw [Finset.eq_empty_iff_forall_not_mem]
  intro f hf
  rw [mem_CompSet] at hf
  obtain ⟨hrange, hcons, hsub⟩ := hf
  have hv' : ¬ (isValid g r c d = true) := by simp [hv]
  unfold isValid at hv'
  rw [Bool.and_eq_true, decide_eq_true_iff, decide_eq_true_iff] at hv'
  rw [not_and_or] at hv'
  rcases hv' with h | h
  · rw [not_forall] at h
    obtain ⟨i, hi⟩ := h
    rw [not_and_or] at hi
    rcases hi with hi | hi
    · rw [not_not] at hi
      exact completion_conflict h0 h1 hcons hsub hi (Or.inl rfl)
    · rw [not_not] at hi
      exact completion_conflict h0 h1 hcons hsub hi (Or.inr (Or.inl rfl))
  · rw [not_forall] at h
    obtain ⟨i, hbi⟩ := h
    rw [not_forall] at hbi
    obtain ⟨j, hij⟩ := hbi
    rw [not_not] at hij
    apply completion_conflict h0 h1 hcons hsub hij
    refine Or.inr (Or.inr ⟨?_, ?_⟩)
    · show r.val / 3 = (boxIdx r i).val / 3
      show r.val / 3 = (3 * (r.val / 3) + i.val) / 3
      have := i.isLt
      omega
    · show c.val / 3 = (boxIdx c j).val / 3
      show c.val / 3 = (3 * (c.val / 3) + j.val) / 3
      have := j.isLt
      omega

/-- Fiberwise counting over an explicit list of key values. -/
theorem card_eq_sum_filter_list {F : Type*} [DecidableEq F] (key : F → Nat) :
    ∀ (L : List Nat), L.Nodup → ∀ (s : Finset F), (∀ f ∈ s, key f ∈ L) →
      (L.map (fun d => (s.filter (fun f => key f = d)).card)).sum = s.card := by
  intro L
  induction L with
  | nil =>
    intro _ s hmem
    have hs : s = ∅ := Finset.eq_empty_of_forall_not_mem
      (fun f hf => by simpa using hmem f hf)
    rw [hs]
    simp
  | cons d rest ih =>
    intro hnd s hmem
    rw [List.nodup_cons] at hnd
    rw [List.map_cons, List.sum_cons]
    have hstep : ∀ e ∈ rest, (s.filter (fun f => key f = e)).card =
        ((s.filter (fun f => ¬ key f = d)).filter (fun f => key f = e)).card := by
      intro e he
      congr 1
      rw [Finset.filter_filter]
      ext f
      simp only [Finset.mem_filter]
      constructor
      · rintro ⟨hf, hk⟩
        refine ⟨hf, ?_, hk⟩
        rw [hk]
        intro hcon
        exact hnd.1 (hcon ▸ he)
      · rintro ⟨hf, _, hk⟩
        exact ⟨hf, hk⟩
    have hmap : rest.map (fun e => (s.filter (fun f => key f = e)).card) =
        rest.map (fun e =>
          ((s.filter (fun f => ¬ key f = d)).filter (fun f => key f = e)).card) :=
      List.map_congr_left hstep
    rw [hmap, ih hnd.2 (s.filter (fun f => ¬ key f = d)) ?_]
    · exact Finset.filter_card_add_filter_neg_card_eq_card (fun f => key f = d)
    · intro f hf
      rw [Finset.mem_filter] at hf
      have hmem' := hmem f hf.1
      rw [List.mem_cons] at hmem'
      rcases hmem' with h | h
      · exact absurd h hf.2
      · exact h

theorem compSet_card_partition {g : Grid} {r c : Fin 9} (h0 : g r c = 0) :
    (Digits.map (fun d => (CompSet (setCell g r c d)).card)).sum =
      (CompSet g).card := by
  have hmap : Digits.map (fun d => (CompSet (setCell g r c d)).card) =
      Digits.map (fun d =>
        ((CompSet g).filter (fun f => (f r c).val + 1 = d)).card) := by
    apply List.map_congr_left
    intro d hd
    have hb : 1 ≤ d ∧ d ≤ 9 := (by decide : ∀ m ∈ Digits, 1 ≤ m ∧ m ≤ 9) d hd
    rw [compSet_setCell h0 hb.1 hb.2]
  rw [hmap]
  generalize CompSet g = s
  exact card_eq_sum_filter_list (fun f => (f r c).val + 1) Digits (by decide) s
    (fun f _ => (by decide : ∀ n < 9, n + 1 ∈ Digits) _ (f r c).isLt)

/-- Overwriting the scanned cell (which held d0, placed by an earlier loop
iteration over a different digit) does not change validity at that cell. -/
theorem isValid_setCell_other {g : Grid} {r c : Fin 9} (h0 : g r c = 0) {d0 num : Nat}
    (hne : num ≠ d0) (hnum0 : num ≠ 0) :
    isValid (setCell g r c d0) r c num = isValid g r c num := by
  have hcell : ∀ a b : Fin 9, (setCell g r c d0 a b ≠ num) ↔ (g a b ≠ num) := by
    intro a b
    by_cases hp : a = r ∧ b = c
    · rw [setCell_eq' _ _ _ _ hp, hp.1, hp.2, h0]
      constructor
      · intro _ hc2
        exact hnum0 hc2.symm
      · intro _ hc2
        exact hne hc2.symm
    · rw [setCell_ne _ _ _ _ hp]
  unfold isValid
  have h1 : decide (∀ i : Fin 9, setCell g r c d0 r i ≠ num ∧ setCell g r c d0 i c ≠ num)
      = decide (∀ i : Fin 9, g r i ≠ num ∧ g i c ≠ num) :=
    decide_eq_decide.mpr (forall_congr' fun i => and_congr (hcell r i) (hcell i c))
  have h2 : decide (∀ i j : Fin 3, setCell g r c d0 (boxIdx r i) (boxIdx c j) ≠ num)
      = decide (∀ i j : Fin 3, g (boxIdx r i) (boxIdx c j) ≠ num) :=
    decide_eq_decide.mpr
      (forall_congr' fun i => forall_congr' fun j => hcell (boxIdx r i) (boxIdx c j))
  rw [h1, h2]

/-- Lower bound for the digit loop of find: starting from count cnt it reaches
at least min(cnt + number of completions branching from the scanned cell, 2).
g' is the board threaded through the loop - either the original g or g with
the scanned cell overwritten by an already-tried digit. -/
theorem findNums_count_lb (recur : Grid → Nat → Grid × Nat) (r c : Fin 9) (g : Grid)
    (h0 : g r c = 0)
    (hrecG : ∀ g' cnt', (recur g' cnt').1 = g')
    (hrecLe : ∀ g' cnt', cnt' ≤ 1 → (recur g' cnt').2 ≤ 2)
    (hrecLB : ∀ d : Nat, 1 ≤ d → d ≤ 9 → ∀ cnt', cnt' ≤ 1 →
      min (cnt' + (CompSet (setCell g r c d)).card) 2 ≤ (recur (setCell g r c d) cnt').2) :
    ∀ (nums : List Nat) (g' : Grid) (cnt : Nat), nums.Nodup →
      (∀ d ∈ nums, 1 ≤ d ∧ d ≤ 9) →
      (g' = g ∨ ∃ d0 : Nat, 1 ≤ d0 ∧ d0 ≤ 9 ∧ d0 ∉ nums ∧ g' = setCell g r c d0) →
      cnt ≤ 2 →
      min (cnt + (nums.map (fun d => (CompSet (setCell g r c d)).card)).sum) 2 ≤
        (findNums recur r c nums g' cnt).2 := by
  intro nums
  induction nums with
  | nil =>
    intro g' cnt _ _ _ _
    simp only [List.map_nil, List.sum_nil, findNums]
    omega
  | cons num rest ih =>
    intro g' cnt hnd hbound hinv hcnt
    rw [List.nodup_cons] at hnd
    rw [List.map_cons, List.sum_cons]
    have hnum := hbound num (List.mem_cons_self num rest)
    by_cases hle : cnt ≤ 1
    · have hval_eq : isValid g' r c num = isValid g r c num := by
        rcases hinv with rfl | ⟨d0, hd01, hd09, hd0n, rfl⟩
        · rfl
        · apply isValid_setCell_other h0
          · intro hcon
            apply hd0n
            rw [← hcon]
            exact List.mem_cons_self num rest
          · omega
      by_cases hv : isValid g r c num = true
      · rw [findNums_cons_valid rest hle (by rw [hval_eq]; exact hv)]
        have hset : setCell g' r c num = setCell g r c num := by
          rcases hinv with rfl | ⟨d0, _, _, _, rfl⟩
          · rfl
          · exact setCell_setCell g r c d0 num
        rw [hset, hrecG]
        have hc1le : (recur (setCell g r c num) cnt).2 ≤ 2 := hrecLe _ _ hle
        have hlb1 : min (cnt + (CompSet (setCell g r c num)).card) 2 ≤
            (recur (setCell g r c num) cnt).2 := hrecLB num hnum.1 hnum.2 cnt hle
        have hrest := ih (setCell g r c num) ((recur (setCell g r c num) cnt).2) hnd.2
          (fun n hn => hbound n (List.mem_cons_of_mem num hn))
          (Or.inr ⟨num, hnum.1, hnum.2, hnd.1, rfl⟩)
          hc1le
        omega
      · rw [Bool.not_eq_true] at hv
        rw [findNums_cons_invalid rest hle (by rw [hval_eq]; exact hv)]
        have hzero : (CompSet (setCell g r c num)).card = 0 := by
          rw [compSet_invalid_empty h0 hnum.1 hnum.2 hv]
          exact Finset.card_empty
        have hinv' : g' = g ∨
            ∃ d0 : Nat, 1 ≤ d0 ∧ d0 ≤ 9 ∧ d0 ∉ rest ∧ g' = setCell g r c d0 := by
          rcases hinv with h | ⟨d0, a1, a2, a3, a4⟩
          · exact Or.inl h
          · exact Or.inr ⟨d0, a1, a2, fun hm => a3 (List.mem_cons_of_mem num hm), a4⟩
        have hrest := ih g' cnt hnd.2
          (fun n hn => hbound n (List.mem_cons_of_mem num hn)) hinv' hcnt
        omega
    · rw [findNums_cons_stop rest hle]
      show min (cnt + ((CompSet (setCell g r c num)).card +
        (rest.map (fun d => (CompSet (setCell g r c d)).card)).sum)) 2 ≤ cnt
      omega

/-- Completeness of the bounded counter: find reaches at least
min(cnt + number of completions, 2). -/
theorem findFrom_count_lb : ∀ (rem : Nat) (g : Grid) (cnt : Nat),
    FilledBelow (81 - rem) g → cnt ≤ 1 →
    min (cnt + (CompSet g).card) 2 ≤ (findFrom rem g cnt).2 := by
  intro rem
  induction rem with
  | zero =>
    intro g cnt hfb hcnt
    have hC : Complete g := complete_of_filledBelow hfb
    have hcard := compSet_card_le_one_of_complete hC
    show min (cnt + (CompSet g).card) 2 ≤ cnt + 1
    omega
  | succ rem ih =>
    intro g cnt hfb hcnt
    by_cases h0 : g (posR rem) (posC rem) = 0
    · rw [findFrom_succ_empty h0]
      show min (cnt + (CompSet g).card) 2 ≤
        (findNums (findFrom rem) (posR rem) (posC rem) Digits g cnt).2
      rw [← compSet_card_partition h0]
      exact findNums_count_lb (findFrom rem) (posR rem) (posC rem) g h0
        (fun g' c' => findFrom_grid rem g' c')
        (fun g' c' h => findFrom_le_two rem g' c' h)
        (fun d hd1 hd9 cnt' hc' =>
          ih (setCell g (posR rem) (posC rem) d) cnt'
            (filledBelow_setCell_pos hfb (by omega)) hc')
        Digits g cnt (by decide) (by decide) (Or.inl rfl) (by omega)
    · rw [findFrom_succ_filled h0]
      exact ih g cnt (filledBelow_succ_pos hfb h0) hcnt

/-- If hasUniqueSolution answers true the grid has at most one coded
completion. -/
theorem hasUnique_count_le_one {p : Grid} (hU : hasUniqueSolution p = true) :
    (CompSet p).card ≤ 1 := by
  by_contra hcard
  rw [not_le] at hcard
  have hlb := findFrom_count_lb 81 p 0 (by intro k hk _; omega) (by omega)
  unfold hasUniqueSolution at hU
  rw [beq_iff_eq] at hU
  omega

theorem card_le_one_eq {α : Type*} {s : Finset α} (h : s.card ≤ 1) {a b : α}
    (ha : a ∈ s) (hb : b ∈ s) : a = b :=
  Finset.card_le_one.mp h a ha b hb

theorem completion_unique {p f1 f2 : Grid} (hcard : (CompSet p).card ≤ 1)
    (h1 : IsCompletion p f1) (h2 : IsCompletion p f2) : f1 = f2 := by
  obtain ⟨e1, he1⟩ : ∃ e : Fin 9 → Fin 9 → Fin 9, toGrid e = f1 :=
    ⟨fun a b => ⟨f1 a b - 1,
       by have ha := (h1.1 a b).1; have hb := (h1.1 a b).2; omega⟩,
     by funext a b
        show (f1 a b - 1) + 1 = f1 a b
        have := (h1.1 a b).1
        omega⟩
  obtain ⟨e2, he2⟩ : ∃ e : Fin 9 → Fin 9 → Fin 9, toGrid e = f2 :=
    ⟨fun a b => ⟨f2 a b - 1,
       by have ha := (h2.1 a b).1; have hb := (h2.1 a b).2; omega⟩,
     by funext a b
        show (f2 a b - 1) + 1 = f2 a b
        have := (h2.1 a b).1
        omega⟩
  have hm1 : e1 ∈ CompSet p := by
    rw [mem_CompSet, he1]
    exact h1
  have hm2 : e2 ∈ CompSet p := by
    rw [mem_CompSet, he2]
    exact h2
  have he : e1 = e2 := by
    generalize CompSet p = s at hcard hm1 hm2
    exact card_le_one_eq hcard hm1 hm2
  rw [← he1, he, he2]

/-! ## Heap-level view of hasUniqueSolution

The source runs find on boardCopy = JSON.parse(JSON.stringify(board)), a
fresh object, and mutates only that object.  To state the frame property
("the caller's grid is never mutated") the heap of board objects is made
explicit: a list of grids addressed by position.  The deep copy allocates a
fresh address at the end of the heap holding the value of the caller's
board; find then mutates the copy's address only. -/

abbrev Heap := List Grid

/-- find(b) where b is the object at address addr: the object is replaced by
the board find leaves behind, and the solution count is returned. -/
def findHeap (addr : Nat) (h : Heap) (cnt : Nat) : Heap × Nat :=
  (h.set addr (findFrom 81 (h.getD addr emptyGrid) cnt).1,
   (findFrom 81 (h.getD addr emptyGrid) cnt).2)

/-- hasUniqueSolution(board) at the heap level: allocate the deep copy,
run find on it, answer whether the count is exactly 1. -/
def hasUniqueSolutionHeap (addr : Nat) (h : Heap) : Bool × Heap :=
  let h1 := h ++ [h.getD addr emptyGrid]
  ((findHeap h.length h1 0).2 == 1, (findHeap h.length h1 0).1)

/-! ## Witness inputs -/

/-- A canonical valid full grid (the shifted rows pattern). -/
def S : Grid := fun r c => (3 * r.val + r.val / 3 + c.val) % 9 + 1

/-- Row-major first empty cell, used only to build the witness oracle. -/
def firstEmptyCell (g : Grid) : Option (Fin 9 × Fin 9) :=
  coordList.find? (fun p => g p.1 p.2 == 0)

theorem mem_Digits_mod (n : Nat) : n % 9 + 1 ∈ Digits := by
  have h : n % 9 < 9 := Nat.mod_lt _ (by norm_num)
  simp only [Digits, List.mem_cons, List.not_mem_nil, or_false]
  omega

theorem S_mem_Digits (r c : Fin 9) : S r c ∈ Digits := mem_Digits_mod _

/-- Digit-order oracle offering the canonical digit S r c first at every
cell: with it, solve fills the empty grid straight through without
backtracking, giving a cheaply checkable successful run. -/
def ordersW : Grid → DigitPerm := fun g =>
  match firstEmptyCell g with
  | some (r, c) => ⟨S r c :: Digits.erase (S r c),
      (List.perm_cons_erase (S_mem_Digits r c)).symm⟩
  | none => ⟨Digits, List.Perm.refl Digits⟩

/-- A fixed stream of draws for the coordinate shuffle. -/
def randW : Nat → Nat := fun _ => 0

/-- A grid on which solve fails: row 0 is 1..8 with its last cell empty, and
the 9 at (1,8) blocks the only remaining digit. -/
def gFail : Grid := fun r c =>
  if r.val = 0 then (if c.val < 8 then c.val + 1 else 0)
  else if r.val = 1 ∧ c.val = 8 then 9 else 0

/-- Unfolding of the generator. -/
theorem generatePuzzle_def (diff : String) (orders : Grid → DigitPerm)
    (rand : Nat → Nat) :
    generatePuzzle diff orders rand =
      ((popLoopN (solve emptyGrid orders).2 (shuffle coordList rand).reverse
        (difficultyTarget diff)).1,
       (solve emptyGrid orders).2) := rfl

theorem coordList_length : coordList.length = 81 := by
  simp [coordList]

theorem hasUniqueSolutionHeap_def (addr : Nat) (h : Heap) :
    hasUniqueSolutionHeap addr h =
      ((findFrom 81 ((h ++ [h.getD addr emptyGrid]).getD h.length emptyGrid) 0).2 == 1,
       (h ++ [h.getD addr emptyGrid]).set h.length
         (findFrom 81 ((h ++ [h.getD addr emptyGrid]).getD h.length emptyGrid) 0).1) := rfl

/-! ## A complete valid grid with one cell cleared passes the uniqueness check

Needed to separate the prototype-key behaviour of generatePuzzle (zero
removals) from genuine target-46 generation (at least one removal): the first
popped cell of a complete valid grid is always removed, because the cleared
grid has the original digit as its only valid refill and hence find counts
exactly one solution. -/

theorem isValid_one_empty_refill {sol : Grid} (hC : Complete sol)
    (hcons : Consistent sol) (hir : InRangeFilled sol) (r0 c0 : Fin 9) :
    isValid (setCell sol r0 c0 0) r0 c0 (sol r0 c0) = true := by
  have hd0 : 1 ≤ sol r0 c0 := (hir r0 c0 (hC r0 c0)).1
  have hcell : ∀ a b : Fin 9, ¬(a = r0 ∧ b = c0) → Peers r0 c0 a b →
      setCell sol r0 c0 0 a b ≠ sol r0 c0 := by
    intro a b hne hpeers
    rw [setCell_ne _ _ _ _ hne]
    intro hcon
    apply hcons r0 c0 a b (by omega) ?_ hpeers hcon.symm
    intro hpair
    rw [Prod.mk.injEq] at hpair
    exact hne ⟨hpair.1.symm, hpair.2.symm⟩
  unfold isValid
  rw [Bool.and_eq_true]
  constructor
  · rw [decide_eq_true_iff]
    intro i
    constructor
    · by_cases hic : i = c0
      · rw [hic, setCell_eq]
        omega
      · exact hcell r0 i (fun hp => hic hp.2) (Or.inl rfl)
    · by_cases hirow : i = r0
      · rw [hirow, setCell_eq]
        omega
      · exact hcell i c0 (fun hp => hirow hp.1) (Or.inr (Or.inl rfl))
  · rw [decide_eq_true_iff]
    intro i j
    by_cases hp : boxIdx r0 i = r0 ∧ boxIdx c0 j = c0
    · rw [setCell_eq' _ _ _ _ hp]
      omega
    · apply hcell _ _ hp
      refine Or.inr (Or.inr ⟨?_, ?_⟩)
      · show r0.val / 3 = (3 * (r0.val / 3) + i.val) / 3
        have := i.isLt
        omega
      · show c0.val / 3 = (3 * (c0.val / 3) + j.val) / 3
        have := j.isLt
        omega

theorem isValid_row_hit_false {g : Grid} {r0 c0 : Fin 9} {d : Nat} (i : Fin 9)
    (hhit : g r0 i = d) : isValid g r0 c0 d = false := by
  unfold isValid
  have hrow : decide (∀ i' : Fin 9, g r0 i' ≠ d ∧ g i' c0 ≠ d) = false := by
    rw [decide_eq_false_iff_not]
    intro hall
    exact (hall i).1 hhit
  rw [hrow, Bool.false_and]

theorem isValid_one_empty_other {sol : Grid} (hC : Complete sol)
    (hcons : Consistent sol) (hir : InRangeFilled sol) (r0 c0 : Fin 9) {d : Nat}
    (h1 : 1 ≤ d) (h9 : d ≤ 9) (hne : d ≠ sol r0 c0) :
    isValid (setCell sol r0 c0 0) r0 c0 d = false := by
  obtain ⟨c', hc', _⟩ := rows_exact hC hcons hir r0 d h1 h9
  have hcne : c' ≠ c0 := by
    intro h
    rw [h] at hc'
    exact hne hc'.symm
  apply isValid_row_hit_false c'
  rw [setCell_ne _ _ _ _ (fun hp => hcne hp.2)]
  exact hc'

theorem isValid_full_false {sol : Grid} (hC : Complete sol)
    (hcons : Consistent sol) (hir : InRangeFilled sol) (r0 c0 : Fin 9) {d : Nat}
    (h1 : 1 ≤ d) (h9 : d ≤ 9) : isValid sol r0 c0 d = false := by
  obtain ⟨c', hc', _⟩ := rows_exact hC hcons hir r0 d h1 h9
  exact isValid_row_hit_false c' hc'

theorem mem_Digits_of_bounds {d : Nat} (h1 : 1 ≤ d) (h9 : d ≤ 9) : d ∈ Digits := by
  simp only [Digits, List.mem_cons, List.not_mem_nil, or_false]
  omega

theorem findNums_all_invalid (recur : Grid → Nat → Grid × Nat) (r c : Fin 9) :
    ∀ (nums : List Nat) (g : Grid) (cnt : Nat),
      (∀ d ∈ nums, isValid g r c d = false) →
      findNums recur r c nums g cnt = (g, cnt) := by
  intro nums
  induction nums with
  | nil => intro g cnt _; rfl
  | cons d rest ih =>
    intro g cnt hinv
    by_cases hcnt : cnt ≤ 1
    · rw [findNums_cons_invalid rest hcnt (hinv d (List.mem_cons_self d rest))]
      exact ih g cnt (fun e he => hinv e (List.mem_cons_of_mem d he))
    · rw [findNums_cons_stop rest hcnt]

theorem findNums_one_empty {sol : Grid} {r0 c0 : Fin 9} (rem : Nat) (hC : Complete sol)
    (hval : isValid (setCell sol r0 c0 0) r0 c0 (sol r0 c0) = true)
    (hinvP : ∀ d : Nat, 1 ≤ d → d ≤ 9 → d ≠ sol r0 c0 →
      isValid (setCell sol r0 c0 0) r0 c0 d = false)
    (hinvS : ∀ d : Nat, 1 ≤ d → d ≤ 9 → isValid sol r0 c0 d = false) :
    ∀ (nums : List Nat) (cnt : Nat), cnt ≤ 1 → sol r0 c0 ∈ nums →
      (∀ d ∈ nums, 1 ≤ d ∧ d ≤ 9) →
      findNums (findFrom rem) r0 c0 nums (setCell sol r0 c0 0) cnt = (sol, cnt + 1) := by
  intro nums
  induction nums with
  | nil => intro cnt _ hmem _; simp at hmem
  | cons d rest ih =>
    intro cnt hcnt hmem hbound
    have hd := hbound d (List.mem_cons_self d rest)
    by_cases hd0 : d = sol r0 c0
    · have hkey : setCell (setCell sol r0 c0 0) r0 c0 d = sol := by
        rw [setCell_setCell, hd0]
        exact setCell_self sol r0 c0
      rw [findNums_cons_valid rest hcnt (by rw [hd0]; exact hval), hkey,
        findFrom_complete rem sol cnt hC]
      exact findNums_all_invalid (findFrom rem) r0 c0 rest sol (cnt + 1)
        (fun e he => hinvS e (hbound e (List.mem_cons_of_mem d he)).1
          (hbound e (List.mem_cons_of_mem d he)).2)
    · rw [findNums_cons_invalid rest hcnt (hinvP d hd.1 hd.2 hd0)]
      apply ih cnt hcnt ?_ (fun e he => hbound e (List.mem_cons_of_mem d he))
      rcases List.mem_cons.mp hmem with h | h
      · exact absurd h.symm hd0
      · exact h

theorem findFrom_one_empty {sol : Grid} {r0 c0 : Fin 9} (hC : Complete sol)
    (hd1 : 1 ≤ sol r0 c0) (hd9 : sol r0 c0 ≤ 9)
    (hval : isValid (setCell sol r0 c0 0) r0 c0 (sol r0 c0) = true)
    (hinvP : ∀ d : Nat, 1 ≤ d → d ≤ 9 → d ≠ sol r0 c0 →
      isValid (setCell sol r0 c0 0) r0 c0 d = false)
    (hinvS : ∀ d : Nat, 1 ≤ d → d ≤ 9 → isValid sol r0 c0 d = false) :
    ∀ (rem : Nat) (cnt : Nat), cnt ≤ 1 → 81 - rem ≤ 9 * r0.val + c0.val →
      findFrom rem (setCell sol r0 c0 0) cnt = (setCell sol r0 c0 0, cnt + 1) := by
  intro rem
  induction rem with
  | zero =>
    intro cnt _ hpos
    exfalso
    have := r0.isLt
    have := c0.isLt
    omega
  | succ rem ih =>
    intro cnt hcnt hpos
    by_cases hp : 80 - rem = 9 * r0.val + c0.val
    · have hr : posR rem = r0 := by
        apply Fin.ext
        show (80 - rem) / 9 = r0.val
        have := c0.isLt
        omega
      have hcq : posC rem = c0 := by
        apply Fin.ext
        show (80 - rem) % 9 = c0.val
        have := c0.isLt
        omega
      have h0 : setCell sol r0 c0 0 (posR rem) (posC rem) = 0 := by
        rw [hr, hcq, setCell_eq]
      rw [findFrom_succ_empty h0, hr, hcq,
        findNums_one_empty rem hC hval hinvP hinvS Digits cnt hcnt
          (mem_Digits_of_bounds hd1 hd9) (by decide)]
    · have hne_cell : ¬(posR rem = r0 ∧ posC rem = c0) := by
        rintro ⟨e1, e2⟩
        apply hp
        have v1 : (80 - rem) / 9 = r0.val := congrArg Fin.val e1
        have v2 : (80 - rem) % 9 = c0.val := congrArg Fin.val e2
        omega
      have h0 : ¬ setCell sol r0 c0 0 (posR rem) (posC rem) = 0 := by
        rw [setCell_ne _ _ _ _ hne_cell]
        exact hC _ _
      rw [findFrom_succ_filled h0]
      exact ih cnt hcnt (by omega)

/-- Spec section 8's single-cell scenario: clearing any one cell of a
complete valid grid leaves a puzzle the bounded counter certifies unique. -/
theorem hasUnique_one_empty {sol : Grid} (hC : Complete sol) (hcons : Consistent sol)
    (hir : InRangeFilled sol) (r0 c0 : Fin 9) :
    hasUniqueSolution (setCell sol r0 c0 0) = true := by
  have hrange := hir r0 c0 (hC r0 c0)
  have hval := isValid_one_empty_refill hC hcons hir r0 c0
  have hinvP : ∀ d : Nat, 1 ≤ d → d ≤ 9 → d ≠ sol r0 c0 →
      isValid (setCell sol r0 c0 0) r0 c0 d = false :=
    fun d h1 h9 hne => isValid_one_empty_other hC hcons hir r0 c0 h1 h9 hne
  have hinvS : ∀ d : Nat, 1 ≤ d → d ≤ 9 → isValid sol r0 c0 d = false :=
    fun d h1 h9 => isValid_full_false hC hcons hir r0 c0 h1 h9
  unfold hasUniqueSolution
  rw [findFrom_one_empty hC hrange.1 hrange.2 hval hinvP hinvS 81 0 (by omega)
    (by omega)]
  rfl

theorem countEmpty_setCell_zero_ge (g : Grid) (r c : Fin 9) :
    countEmpty g ≤ countEmpty (setCell g r c 0) := by
  unfold countEmpty
  apply Finset.card_le_card
  intro p hp
  rw [Finset.mem_filter] at hp ⊢
  refine ⟨hp.1, ?_⟩
  by_cases hpr : p.1 = r ∧ p.2 = c
  · rw [setCell_eq' _ _ _ _ hpr]
  · rw [setCell_ne _ _ _ _ hpr]
    exact hp.2

theorem countEmpty_setCell_zero_pos (g : Grid) (r c : Fin 9) :
    1 ≤ countEmpty (setCell g r c 0) := by
  apply Finset.card_pos.mpr
  exact ⟨(r, c), Finset.mem_filter.mpr ⟨Finset.mem_univ _, setCell_eq g r c 0⟩⟩

theorem popLoopN_countEmpty_ge : ∀ (cells : List (Fin 9 × Fin 9)) (g : Grid) (k : Nat),
    countEmpty g ≤ countEmpty (popLoopN g cells k).1 := by
  intro cells
  induction cells with
  | nil => intro g k; rw [popLoopN_nil]
  | cons p rest ih =>
    obtain ⟨r, c⟩ := p
    intro g k
    cases k with
    | zero => rw [popLoopN_zero]
    | succ k =>
      by_cases hU : hasUniqueSolution (setCell g r c 0) = true
      · rw [popLoopN_cons_commit hU]
        calc countEmpty g ≤ countEmpty (setCell g r c 0) :=
              countEmpty_setCell_zero_ge g r c
          _ ≤ countEmpty (popLoopN (setCell g r c 0) rest k).1 := ih _ k
      · rw [Bool.not_eq_true] at hU
        rw [popLoopN_cons_reject hU, setCell_zero_restore]
        exact ih g (k + 1)

/-- With a positive budget the removal loop always removes its first popped
cell from a complete valid grid. -/
theorem popLoopN_pos_removes {sol : Grid} (hC : Complete sol) (hcons : Consistent sol)
    (hir : InRangeFilled sol) (p : Fin 9 × Fin 9) (rest : List (Fin 9 × Fin 9))
    (k : Nat) : 1 ≤ countEmpty (popLoopN sol (p :: rest) (k + 1)).1 := by
  obtain ⟨r, c⟩ := p
  have hU := hasUnique_one_empty hC hcons hir r c
  rw [popLoopN_cons_commit hU]
  calc 1 ≤ countEmpty (setCell sol r c 0) := countEmpty_setCell_zero_pos sol r c
    _ ≤ countEmpty (popLoopN (setCell sol r c 0) rest k).1 :=
        popLoopN_countEmpty_ge rest _ k

set_option maxRecDepth 100000 in
set_option maxHeartbeats 2000000 in
/-- The witness oracle makes solve succeed on the empty grid (checked by
evaluation: it fills the 81 cells without backtracking). -/
theorem solveW_ok : (solve emptyGrid ordersW).1 = true := by decide

set_option maxRecDepth 100000 in
set_option maxHeartbeats 2000000 in
/-- solve fails on gFail (checked by evaluation: the first empty cell (0,8)
admits no digit). -/
theorem gFail_fails : (solve gFail ordersW).1 = false := by decide

/-! ## The claims -/

/-- C1: for every difficulty and every (puzzle, solution) pair returned by a
generatePuzzle run whose initial fill succeeded (which is every actual run;
the empty grid is always fillable), the puzzle passes the bounded uniqueness
check - the solution count with cutoff 2 equals 1 - and, equivalently, the
puzzle has exactly one valid complete Sudoku completion. -/
theorem generatePuzzle_unique (diff : String) (orders : Grid → DigitPerm)
    (rand : Nat → Nat) (hsucc : (solve emptyGrid orders).1 = true) :
    hasUniqueSolution (generatePuzzle diff orders rand).1 = true ∧
    ∃! f : Grid, IsCompletion (generatePuzzle diff orders rand).1 f := by
  obtain ⟨hC, hcons, hir⟩ := solve_success consistent_empty inRangeFilled_empty hsucc
  have hUsol : hasUniqueSolution (solve emptyGrid orders).2 = true :=
    hasUnique_of_complete hC
  have hUpuz : hasUniqueSolution (generatePuzzle diff orders rand).1 = true := by
    rw [generatePuzzle_def]
    exact popLoopN_unique _ _ _ hUsol
  refine ⟨hUpuz, ?_⟩
  have hsub : SubAssign (generatePuzzle diff orders rand).1 (solve emptyGrid orders).2 := by
    rw [generatePuzzle_def]
    exact popLoopN_subAssign _ _ _ _ (fun r c _ => rfl)
  have hcomp : IsCompletion (generatePuzzle diff orders rand).1 (solve emptyGrid orders).2 :=
    ⟨fun r c => hir r c (hC r c), hcons, hsub⟩
  have hcard := hasUnique_count_le_one hUpuz
  exact ⟨(solve emptyGrid orders).2, hcomp,
    fun f hf => completion_unique hcard hf hcomp⟩

/-- C1 witness: a concrete run (canonical-first digit oracle, constant draw
stream, difficulty easy) satisfying the hypothesis and hence the claim. -/
theorem generatePuzzle_unique_witness :
    (solve emptyGrid ordersW).1 = true ∧
    (hasUniqueSolution (generatePuzzle "easy" ordersW randW).1 = true ∧
     ∃! f : Grid, IsCompletion (generatePuzzle "easy" ordersW randW).1 f) :=
  ⟨solveW_ok, generatePuzzle_unique "easy" ordersW randW solveW_ok⟩

/-- C2: for every difficulty and random source, every non-empty cell of the
returned puzzle equals the corresponding cell of the returned solution: the
puzzle is a sub-assignment of its solution. -/
theorem generatePuzzle_subAssign (diff : String) (orders : Grid → DigitPerm)
    (rand : Nat → Nat) :
    SubAssign (generatePuzzle diff orders rand).1 (generatePuzzle diff orders rand).2 := by
  rw [generatePuzzle_def]
  exact popLoopN_subAssign _ _ _ _ (fun r c _ => rfl)

/-- C3: every run of solve on the empty grid that returns success leaves a
grid in which every row, every column and every 3x3 box contains each digit
1-9 exactly once; consequently the solution grid returned by generatePuzzle
holds only integers 1-9. -/
theorem solve_empty_valid (orders : Grid → DigitPerm) (diff : String)
    (rand : Nat → Nat) (hsucc : (solve emptyGrid orders).1 = true) :
    ExactlyOnceRows (solve emptyGrid orders).2 ∧
    ExactlyOnceCols (solve emptyGrid orders).2 ∧
    ExactlyOnceBoxes (solve emptyGrid orders).2 ∧
    (∀ r c : Fin 9, 1 ≤ (generatePuzzle diff orders rand).2 r c ∧
      (generatePuzzle diff orders rand).2 r c ≤ 9) := by
  obtain ⟨hC, hcons, hir⟩ := solve_success consistent_empty inRangeFilled_empty hsucc
  refine ⟨rows_exact hC hcons hir, cols_exact hC hcons hir,
    boxes_exact hC hcons hir, ?_⟩
  intro r c
  exact hir r c (hC r c)

/-- C3 witness: the canonical-first oracle gives a concrete successful run. -/
theorem solve_empty_valid_witness :
    (solve emptyGrid ordersW).1 = true ∧
    (ExactlyOnceRows (solve emptyGrid ordersW).2 ∧
     ExactlyOnceCols (solve emptyGrid ordersW).2 ∧
     ExactlyOnceBoxes (solve emptyGrid ordersW).2 ∧
     (∀ r c : Fin 9, 1 ≤ (generatePuzzle "easy" ordersW randW).2 r c ∧
       (generatePuzzle "easy" ordersW randW).2 r c ≤ 9)) :=
  ⟨solveW_ok, solve_empty_valid ordersW "easy" randW solveW_ok⟩

/-- C4 witness: concrete instance on the empty grid at (0, 0) with digit 5. -/
theorem isValid_iff_nowhereElse_witness :
    emptyGrid 0 0 = 0 ∧ 1 ≤ 5 ∧ 5 ≤ 9 ∧
    (isValid emptyGrid 0 0 5 = true ↔ NowhereElse emptyGrid 0 0 5) :=
  ⟨rfl, by omega, by omega,
   isValid_iff_nowhereElse emptyGrid 0 0 5 rfl (by omega) (by omega)⟩

/-- C5: for every difficulty and every generatePuzzle run whose initial fill
succeeded, the number of empty cells of the returned puzzle is at most the
fixed table target for the difficulty; the table is 38 for easy, 46 for
medium, 53 for hard, 59 for expert and 64 for master. -/
theorem generatePuzzle_empty_bound (diff : String) (orders : Grid → DigitPerm)
    (rand : Nat → Nat) (hsucc : (solve emptyGrid orders).1 = true) :
    countEmpty (generatePuzzle diff orders rand).1 ≤ difficultyTarget diff ∧
    difficultyTarget "easy" = 38 ∧ difficultyTarget "medium" = 46 ∧
    difficultyTarget "hard" = 53 ∧ difficultyTarget "expert" = 59 ∧
    difficultyTarget "master" = 64 := by
  obtain ⟨hC, _, _⟩ := solve_success consistent_empty inRangeFilled_empty hsucc
  refine ⟨?_, by decide, by decide, by decide, by decide, by decide⟩
  rw [generatePuzzle_def]
  show countEmpty (popLoopN (solve emptyGrid orders).2
    (shuffle coordList rand).reverse (difficultyTarget diff)).1 ≤ difficultyTarget diff
  have h1 := popLoopN_countEmpty (shuffle coordList rand).reverse
    (solve emptyGrid orders).2 (difficultyTarget diff)
  have h2 := countEmpty_complete hC
  omega

/-- C5 witness: the concrete run used in the other witnesses. -/
theorem generatePuzzle_empty_bound_witness :
    (solve emptyGrid ordersW).1 = true ∧
    (countEmpty (generatePuzzle "easy" ordersW randW).1 ≤ difficultyTarget "easy" ∧
     difficultyTarget "easy" = 38 ∧ difficultyTarget "medium" = 46 ∧
     difficultyTarget "hard" = 53 ∧ difficultyTarget "expert" = 59 ∧
     difficultyTarget "master" = 64) :=
  ⟨solveW_ok, generatePuzzle_empty_bound "easy" ordersW randW solveW_ok⟩

/-- C6: whenever solve returns failure, the grid at return is identical to
the grid at entry - every value placed during the failed search has been
cleared before returning. -/
theorem solve_restores_on_failure (g : Grid) (orders : Grid → DigitPerm)
    (hfail : (solve g orders).1 = false) : (solve g orders).2 = g :=
  solveAux_restore orders 81 g hfail

/-- C6 witness: a concrete unsatisfiable grid on which solve fails and is
restored. -/
theorem solve_restores_on_failure_witness :
    (solve gFail ordersW).1 = false ∧ (solve gFail ordersW).2 = gFail :=
  ⟨gFail_fails, solve_restores_on_failure gFail ordersW gFail_fails⟩

/-- C7: hasUniqueSolution leaves the caller's grid unchanged: it deep-copies
the board into a fresh heap object and find mutates only that copy, so the
object at the caller's address is equal before and after the call (and the
boolean returned is that of the pure counter on the board's value). -/
theorem hasUniqueSolution_heap_frame (h : Heap) (addr : Nat) (hlt : addr < h.length) :
    (hasUniqueSolutionHeap addr h).2.getD addr emptyGrid = h.getD addr emptyGrid ∧
    (hasUniqueSolutionHeap addr h).1 = hasUniqueSolution (h.getD addr emptyGrid) := by
  have hcopy : (h ++ [h.getD addr emptyGrid]).getD h.length emptyGrid =
      h.getD addr emptyGrid := by
    rw [List.getD_eq_getElem?_getD, List.getElem?_append_right (Nat.le_refl _)]
    simp
  rw [hasUniqueSolutionHeap_def]
  constructor
  · show ((h ++ [h.getD addr emptyGrid]).set h.length
      (findFrom 81 ((h ++ [h.getD addr emptyGrid]).getD h.length emptyGrid) 0).1).getD
        addr emptyGrid = h.getD addr emptyGrid
    rw [List.getD_eq_getElem?_getD, List.getElem?_set_ne (by omega : h.length ≠ addr),
      List.getElem?_append_left hlt, ← List.getD_eq_getElem?_getD]
  · show ((findFrom 81 ((h ++ [h.getD addr emptyGrid]).getD h.length emptyGrid) 0).2 == 1)
      = hasUniqueSolution (h.getD addr emptyGrid)
    rw [hcopy]
    rfl

/-- C7 witness: a one-object heap. -/
theorem hasUniqueSolution_heap_frame_witness :
    0 < ([emptyGrid] : Heap).length ∧
    ((hasUniqueSolutionHeap 0 [emptyGrid]).2.getD 0 emptyGrid =
       ([emptyGrid] : Heap).getD 0 emptyGrid ∧
     (hasUniqueSolutionHeap 0 [emptyGrid]).1 =
       hasUniqueSolution (([emptyGrid] : Heap).getD 0 emptyGrid)) :=
  ⟨by decide, hasUniqueSolution_heap_frame [emptyGrid] 0 (by decide)⟩

/-- C8: for every difficulty and random source, the removal loop of
generatePuzzle performs at most 81 uniqueness checks (one per iteration, so
it also runs at most 81 iterations): each of the 81 shuffled coordinates is
popped at most once, consumed whether the removal is committed or rejected. -/
theorem removalChecks_le (diff : String) (orders : Grid → DigitPerm)
    (rand : Nat → Nat) : removalChecks diff orders rand ≤ 81 := by
  unfold removalChecks
  have h := popLoopN_checks (shuffle coordList rand).reverse
    (solve emptyGrid orders).2 (difficultyTarget diff)
  have hlen : (shuffle coordList rand).reverse.length = 81 := by
    rw [List.length_reverse, shuffle_length, coordList_length]
  omega

/-- C9: for a difficulty string outside easy, medium, hard, expert, master the
behaviour splits. If the string is not a property name inherited from
Object.prototype, the lookup yields undefined, the fallback fires, the target
is 46 and generation behaves exactly as with difficulty medium. If it is such
an inherited name (toString, constructor, __proto__, ...), the lookup is
truthy, the fallback never fires, the removal loop's guard compares NaN and
runs zero times: the returned puzzle is the untouched full solution and no
uniqueness check happens - not medium-target generation. -/
theorem generatePuzzle_unknown_difficulty (diff : String) (orders : Grid → DigitPerm)
    (rand : Nat → Nat)
    (h : ¬(diff = "easy" ∨ diff = "medium" ∨ diff = "hard" ∨ diff = "expert" ∨
      diff = "master")) :
    (diff ∉ protoKeys →
      difficultyTarget diff = 46 ∧
      generatePuzzle diff orders rand = generatePuzzle "medium" orders rand) ∧
    (diff ∈ protoKeys →
      difficultyTarget diff = 0 ∧
      generatePuzzle diff orders rand =
        ((solve emptyGrid orders).2, (solve emptyGrid orders).2) ∧
      removalChecks diff orders rand = 0) := by
  push_neg at h
  obtain ⟨h1, h2, h3, h4, h5⟩ := h
  constructor
  · intro hnp
    have ht : difficultyTarget diff = 46 := by
      unfold difficultyTarget
      rw [if_neg h1, if_neg h2, if_neg h3, if_neg h4, if_neg h5, if_neg hnp]
    refine ⟨ht, ?_⟩
    rw [generatePuzzle_def, generatePuzzle_def, ht,
      (by decide : difficultyTarget "medium" = 46)]
  · intro hp
    have ht : difficultyTarget diff = 0 := by
      unfold difficultyTarget
      rw [if_neg h1, if_neg h2, if_neg h3, if_neg h4, if_neg h5, if_pos hp]
    refine ⟨ht, ?_, ?_⟩
    · rw [generatePuzzle_def, ht, popLoopN_zero]
    · unfold removalChecks
      rw [ht, popLoopN_zero]

/-- C9 witness: a concrete string in each branch - the unrecognized
"nightmare" falls back to medium, the inherited "toString" does not. -/
theorem generatePuzzle_unknown_difficulty_witness :
    ((¬("nightmare" = "easy" ∨ "nightmare" = "medium" ∨ "nightmare" = "hard" ∨
       "nightmare" = "expert" ∨ "nightmare" = "master")) ∧
     (difficultyTarget "nightmare" = 46 ∧
      generatePuzzle "nightmare" ordersW randW = generatePuzzle "medium" ordersW randW)) ∧
    ((¬("toString" = "easy" ∨ "toString" = "medium" ∨ "toString" = "hard" ∨
       "toString" = "expert" ∨ "toString" = "master")) ∧
     (difficultyTarget "toString" = 0 ∧
      generatePuzzle "toString" ordersW randW =
        ((solve emptyGrid ordersW).2, (solve emptyGrid ordersW).2) ∧
      removalChecks "toString" ordersW randW = 0)) :=
  ⟨⟨by decide,
    (generatePuzzle_unknown_difficulty "nightmare" ordersW randW (by decide)).1
      (by decide)⟩,
   ⟨by decide,
    (generatePuzzle_unknown_difficulty "toString" ordersW randW (by decide)).2
      (by decide)⟩⟩

/-- C9 counterexample to the claim as stated: "toString" is outside the
difficulty table, yet generation does not behave as with target 46. The run
performs zero uniqueness checks and returns a puzzle with no empty cell (the
untouched solution), whereas the medium run removes at least one cell; the
two outputs differ. -/
theorem generatePuzzle_proto_counterexample :
    (¬("toString" = "easy" ∨ "toString" = "medium" ∨ "toString" = "hard" ∨
       "toString" = "expert" ∨ "toString" = "master")) ∧
    removalChecks "toString" ordersW randW = 0 ∧
    countEmpty (generatePuzzle "toString" ordersW randW).1 = 0 ∧
    generatePuzzle "toString" ordersW randW ≠ generatePuzzle "medium" ordersW randW := by
  obtain ⟨hC, hcons, hir⟩ :=
    solve_success consistent_empty inRangeFilled_empty solveW_ok
  have hts0 : difficultyTarget "toString" = 0 := by decide
  have htsP : (generatePuzzle "toString" ordersW randW).1 = (solve emptyGrid ordersW).2 := by
    rw [generatePuzzle_def, hts0, popLoopN_zero]
  have hmed : 1 ≤ countEmpty (generatePuzzle "medium" ordersW randW).1 := by
    have hlen : (shuffle coordList randW).reverse.length = 81 := by
      rw [List.length_reverse, shuffle_length, coordList_length]
    obtain ⟨p, rest, hpr⟩ :=
      List.exists_cons_of_ne_nil (l := (shuffle coordList randW).reverse)
        (by intro hnil; rw [hnil] at hlen; simp at hlen)
    rw [generatePuzzle_def, (by decide : difficultyTarget "medium" = 46), hpr]
    exact popLoopN_pos_removes hC hcons hir p rest 45
  refine ⟨by decide, ?_, ?_, ?_⟩
  · unfold removalChecks
    rw [hts0, popLoopN_zero]
  · rw [htsP]
    exact countEmpty_complete hC
  · intro heq
    have h1 : countEmpty (generatePuzzle "toString" ordersW randW).1 = 0 := by
      rw [htsP]
      exact countEmpty_complete hC
    rw [heq] at h1
    omega

/-- C10: for every input list and every stream of draws, shuffle returns a
permutation of its input: same length and same multiset of elements. -/
theorem shuffle_is_permutation {α : Type*} (l : List α) (rand : Nat → Nat) :
    (shuffle l rand).Perm l ∧ (shuffle l rand).length = l.length :=
  ⟨shuffle_perm l rand, shuffle_length l rand⟩
